import Mathlib

/-!
# Shallow embedding of the GLC lossy gapless codec (src/src/codec.rs)

The Rust source operates on `f32` samples.  This embedding models `f32`
arithmetic as exact rational arithmetic (`ℚ`): field operations, comparisons,
`abs`, `min`/`max`, `clamp`, rounding and integer casts are translated exactly,
while the transcendental library functions the source calls (`sin`, `cos`,
`sqrt`, `log2`, `powf`) are abstracted into a record `FloatFns` of rational
functions, a parameter of every pipeline function.  All structural facts proved
below (lengths, padding, frame counts, index sets, error behaviour, trimming,
payload layout) are independent of the values these functions return, so they
hold in particular for the `f32` instantiation the binary uses.

Rust panics (integer division by zero, out-of-bounds slice/index) are modelled
by `Except GlcError` with the `GlcError.panicked` constructor; the source never
constructs an `InvalidInput`-style error value, but the constructor is present
so that claims about it can be stated.

`f32` literals such as `1e-10` are embedded as the exact rationals they denote
in source text; the nearest-`f32` rounding of a literal differs from it by a
relative error < 2⁻²³, which none of the structural statements below depend on.
-/

set_option maxRecDepth 10000

namespace GLC

/-- Abstraction of the `f32` transcendental functions called by the source
(`sin`, `cos`, `sqrt`, `log2` and `powf` with base 10).  Every codec function
takes this record as a parameter; theorems quantify over it. -/
structure FloatFns where
  sin : ℚ → ℚ
  cos : ℚ → ℚ
  sqrt : ℚ → ℚ
  log2 : ℚ → ℚ
  pow10 : ℚ → ℚ

/-! ## Constants (codec.rs lines 15-29) -/

/-- `FRAME_SIZE = 2048` — samples per MDCT block. -/
def FRAME_SIZE : ℕ := 2048

/-- `HOP_SIZE = 1024` — hop, 50 percent overlap. -/
def HOP_SIZE : ℕ := 1024

/-- `QUANTIZATION_BITS = 16`. -/
def QUANTIZATION_BITS : ℕ := 16

/-- `FRAMES_PER_CHUNK = 500`. -/
def FRAMES_PER_CHUNK : ℕ := 500

/-- `NOISE_FLOOR_DB = -48.0`. -/
def NOISE_FLOOR_DB : ℚ := -48

/-- `QUALITY_FACTOR = 0.7`. -/
def QUALITY_FACTOR : ℚ := 7/10

/-- `MIN_QUANTIZATION_BITS = 8`. -/
def MIN_QUANTIZATION_BITS : ℕ := 8

/-- `MAX_QUANTIZATION_BITS = 16`. -/
def MAX_QUANTIZATION_BITS : ℕ := 16

/-- `COMPRESSION_THRESHOLD = 0.85`. -/
def COMPRESSION_THRESHOLD : ℚ := 17/20

/-- The `f32` value of `std::f32::consts::PI` (bit pattern 0x40490FDB),
exactly 13176795 / 2^22. -/
def ratPI : ℚ := 13176795 / 4194304

/-- The `f32` literal `1e-10` used as the encoder scale floor. -/
def SCALE_FLOOR_ENC : ℚ := 1/10000000000

/-- The `f32` literal `1e-12` used as the decoder scale floor. -/
def SCALE_FLOOR_DEC : ℚ := 1/1000000000000

/-! ## Scalar helpers: Rust float-to-integer semantics over ℚ -/

/-- Rust `as` cast from a float to a signed integer truncates toward zero
(the operand is always clamped in range first in this code base). -/
def ratTrunc (q : ℚ) : ℤ :=
  if 0 ≤ q then ⌊q⌋ else ⌈q⌉

/-- Rust `as` cast from a float to an unsigned integer: truncate toward zero,
saturating at 0 for negative inputs. -/
def ratTruncNat (q : ℚ) : ℕ :=
  (ratTrunc q).toNat

/-- Rust `f32::round`: round half away from zero. -/
def rustRound (q : ℚ) : ℤ :=
  if 0 ≤ q then ⌊q + 1/2⌋ else ⌈q - 1/2⌉

/-- Rust `f32::clamp(lo, hi)`. -/
def clampQ (x lo hi : ℚ) : ℚ :=
  min hi (max lo x)

/-- Clamp on integers (used for the quantized value's i16 range). -/
def clampZ (x lo hi : ℤ) : ℤ :=
  min hi (max lo x)

/-- `coeffs.iter().map(|x| x.abs()).fold(0.0, f32::max)`. -/
def maxAbs (l : List ℚ) : ℚ :=
  l.foldl (fun m x => max m |x|) 0

/-- Rust `.enumerate()` over a slice, starting at index `i`. -/
def enumFromL {α : Type} : ℕ → List α → List (ℕ × α)
  | _, [] => []
  | i, x :: xs => (i, x) :: enumFromL (i + 1) xs

/-- Rust `.enumerate()` over a slice. -/
def enumL {α : Type} (l : List α) : List (ℕ × α) :=
  enumFromL 0 l

/-! ## Data model (codec.rs lines 31-69) -/

/-- Errors of the embedded API.  The source type is `anyhow::Error`; `panicked`
stands for a Rust panic (the source's `encode`/`decode` never construct an
error value themselves). -/
inductive GlcError where
  | invalidInput
  | panicked
  | corruptStream
  deriving DecidableEq, Repr

/-- `AudioHeader`: sample_rate (u32), channels (u16), total_samples (u64). -/
structure AudioHeader where
  sample_rate : ℕ
  channels : ℕ
  total_samples : ℕ
  deriving DecidableEq, Repr

/-- `GaplessInfo`: encoder_delay (u32), padding (u32), original_length (u64). -/
structure GaplessInfo where
  encoder_delay : ℕ
  padding : ℕ
  original_length : ℕ
  deriving DecidableEq, Repr

/-- `EncodedFrame`: per-channel sparse (u16 index, i16 value) pairs, per-channel
f32 scale factors, and an optional raw interleaved i16 payload. -/
structure EncodedFrame where
  sparse_coeffs_per_channel : List (List (ℕ × ℤ))
  scale_factors : List ℚ
  raw_pcm : Option (List ℤ)
  deriving DecidableEq, Repr

/-- `EncodedAudio`: header + time-ordered frames + gapless metadata. -/
structure EncodedAudio where
  header : AudioHeader
  frames : List EncodedFrame
  gapless_info : GaplessInfo
  deriving DecidableEq, Repr

/-! ## Except plumbing (explicit combinators for a transparent embedding) -/

/-- Monadic map over `Except`, mirroring a Rust `for` loop that can panic. -/
def exceptMap {α β : Type} (f : α → Except GlcError β) :
    List α → Except GlcError (List β)
  | [] => .ok []
  | x :: xs =>
    match f x with
    | .error e => .error e
    | .ok y =>
      match exceptMap f xs with
      | .error e => .error e
      | .ok ys => .ok (y :: ys)

/-- Monadic fold over `Except`, mirroring a Rust loop threading state. -/
def exceptFoldl {σ α : Type} (f : σ → α → Except GlcError σ) :
    σ → List α → Except GlcError σ
  | st, [] => .ok st
  | st, x :: xs =>
    match f st x with
    | .error e => .error e
    | .ok st2 => exceptFoldl f st2 xs

/-- Rust slice expression `&xs[start .. start + len]`; panics when out of
bounds. -/
def listSlice (xs : List ℚ) (start len : ℕ) : Except GlcError (List ℚ) :=
  if start + len ≤ xs.length then .ok ((xs.drop start).take len)
  else .error .panicked

/-- Rust index expression `xs[i]`; panics when out of bounds. -/
def listIndex {α : Type} (xs : List α) (i : ℕ) : Except GlcError α :=
  match xs.get? i with
  | some x => .ok x
  | none => .error .panicked

/-! ## PerceptualWeights (codec.rs lines 91-184) -/

/-- Per-bin perceptual weight, the closure in `PerceptualWeights::new`. -/
def perceptualWeightAt (sample_rate n k : ℕ) : ℚ :=
  let norm_freq : ℚ := (k : ℚ) / (2 * (n : ℚ))
  let freq_hz : ℚ := norm_freq * (sample_rate : ℚ)
  let weight : ℚ :=
    if freq_hz < 100 then 3/10 + (freq_hz / 100) * (4/10)
    else if freq_hz < 200 then 7/10 + ((freq_hz - 100) / 100) * (3/10)
    else if freq_hz < 5000 then 1
    else if freq_hz < 10000 then 1 - ((freq_hz - 5000) / 5000) * (3/10)
    else 7/10 - min ((freq_hz - 10000) / 12000) 1 * (5/10)
  max weight (2/10)

/-- Body of the `while` loop of `compute_critical_bands`, with explicit fuel.
Each iteration advances `freq` by at least 50 and the loop stops once
`freq ≥ nyquist = sample_rate / 2`, so `sample_rate + 2` units of fuel are
always sufficient; the fuel branch is never the one that terminates. -/
def criticalBandsLoop (n : ℕ) (nyquist : ℚ) :
    ℕ → ℚ → List ℕ → List ℕ
  | 0, _, bands => bands
  | fuel + 1, freq, bands =>
    if freq < nyquist ∧ bands.length < 50 then
      let bin : ℕ := ratTruncNat ((freq / nyquist) * (n : ℚ))
      let bands2 := if bands.getLastD 0 < bin ∧ bin < n then bands ++ [bin] else bands
      let freq2 : ℚ :=
        if freq < 500 then freq + 50
        else if freq < 2000 then freq + 100
        else if freq < 8000 then freq + 250
        else freq + 500
      criticalBandsLoop n nyquist fuel freq2 bands2
    else bands

/-- `PerceptualWeights::compute_critical_bands`. -/
def compute_critical_bands (n sample_rate : ℕ) : List ℕ :=
  let nyquist : ℚ := (sample_rate : ℚ) / 2
  let bands := criticalBandsLoop n nyquist (sample_rate + 2) 0 [0]
  bands ++ [n]

/-- `PerceptualWeights` (the `Arc`s of the source are plain lists here). -/
structure PerceptualWeights where
  weights : List ℚ
  critical_bands : List ℕ
  sample_rate : ℕ
  deriving DecidableEq, Repr

/-- `PerceptualWeights::new`. -/
def PerceptualWeights.new (n sample_rate : ℕ) : PerceptualWeights :=
  { weights := (List.range n).map (perceptualWeightAt sample_rate n)
    critical_bands := compute_critical_bands n sample_rate
    sample_rate := sample_rate }

/-! ## Masking thresholds and quantizer (codec.rs lines 186-311) -/

/-- `compute_masking_thresholds`.  The source writes into `thresholds[i]` for
`i` in each band; here the vector is threaded through two folds.  Band edges
come from `critical_bands` (strictly increasing, ending at `n`), so the slice
accesses of the source are in bounds; `getD` is used for the corresponding
reads. -/
def compute_masking_thresholds (ops : FloatFns) (coeffs : List ℚ)
    (quality : ℚ) (perceptual : PerceptualWeights) : List ℚ :=
  let n := coeffs.length
  let global_max : ℚ := max (maxAbs coeffs) SCALE_FLOOR_ENC
  let w := perceptual.weights
  let band_edges := perceptual.critical_bands
  (List.range (band_edges.length - 1)).foldl (fun thresholds band_idx =>
    let start := band_edges.getD band_idx 0
    let stop := min (band_edges.getD (band_idx + 1) 0) n
    if start ≥ stop then thresholds
    else
      let seg := (coeffs.drop start).take (stop - start)
      let energy := ops.sqrt ((seg.map (fun x => x * x)).sum / ((stop - start : ℕ) : ℚ))
      let avg_weight := ((w.drop start).take (stop - start)).sum / ((stop - start : ℕ) : ℚ)
      let compression_factor := max (1 - quality) (1/100)
      let perceptual_factor := 1 / max avg_weight (1/10)
      let base_threshold := energy * (1/100) * compression_factor * perceptual_factor
      (List.range (stop - start)).foldl (fun th j =>
        let i := start + j
        let individual_factor := 1 / max (w.getD i 0) (1/10)
        let t := base_threshold * individual_factor
        let t2 := if global_max * (3/10) < |coeffs.getD i 0|
                  then min t (global_max * (5/100)) else t
        th.set i t2) thresholds)
    (List.replicate n 0)

/-- `compute_quantization_bits_fast`. -/
def compute_quantization_bits_fast (ops : FloatFns)
    (abs_val threshold global_max : ℚ) : ℕ :=
  if abs_val ≤ threshold then 0
  else
    let importance := max (ops.log2 (abs_val / threshold)) 0
    let relative_magnitude := abs_val / global_max
    let score := importance * (3/10) + relative_magnitude * (7/10)
    let bits := MIN_QUANTIZATION_BITS +
      ratTruncNat (score * ((MAX_QUANTIZATION_BITS - MIN_QUANTIZATION_BITS : ℕ) : ℚ))
    min (max bits MIN_QUANTIZATION_BITS) MAX_QUANTIZATION_BITS

/-- The per-coefficient body of the `compress_coefficients` loop: `none` means
the coefficient is discarded, `some (idx, q)` that `(idx, q)` is pushed.
`k as u16` is embedded as `k % 65536`. -/
def compressStep (ops : FloatFns) (scale noise_floor_linear global_max : ℚ)
    (thresholds : List ℚ) (kc : ℕ × ℚ) : Option (ℕ × ℤ) :=
  let k := kc.1
  let coeff := kc.2
  let abs_val := |coeff|
  let threshold := thresholds.getD k 0 * scale
  if noise_floor_linear < abs_val ∧ threshold < abs_val then
    let importance_bits := compute_quantization_bits_fast ops abs_val threshold global_max
    if importance_bits = 0 then none
    else
      let normalized := coeff / scale
      let q := clampZ (rustRound (normalized * 32768)) (-32768) 32767
      if q ≠ 0 then some (k % 65536, q) else none
  else none

/-- `compress_coefficients`: sparse representation with the fixed `2^15`
denominator (`max_q = 1 << (QUANTIZATION_BITS - 1) = 32768`). -/
def compress_coefficients (ops : FloatFns) (coeffs : List ℚ) (scale : ℚ)
    (thresholds : List ℚ) (noise_floor_db : ℚ) : List (ℕ × ℤ) :=
  let noise_floor_linear := ops.pow10 (noise_floor_db / 20) * scale
  let global_max := max (maxAbs coeffs) SCALE_FLOOR_ENC
  (enumL coeffs).filterMap
    (compressStep ops scale noise_floor_linear global_max thresholds)

/-! ## MDCT tables (codec.rs lines 313-391) -/

/-- The angle whose cosine is stored in `cos_table[k * FRAME_SIZE + i]`. -/
def mdctAngle (n k i : ℕ) : ℚ :=
  ratPI / (n : ℚ) * ((i : ℚ) + 1/2 + (n : ℚ) / 2) * ((k : ℚ) + 1/2)

/-- The sine window `w[i] = sin(PI * (i + 0.5) / FRAME_SIZE)`. -/
def theWindow (ops : FloatFns) : List ℚ :=
  (List.range FRAME_SIZE).map
    (fun i : ℕ => ops.sin (ratPI * ((i : ℚ) + 1/2) / (FRAME_SIZE : ℚ)))

/-- The orthonormal normalization factor `sqrt(2 / N)`. -/
def mdctNorm (ops : FloatFns) (n : ℕ) : ℚ :=
  ops.sqrt (2 / (n : ℚ))

/-- `MdctTables::mdct_block`: block of length FRAME_SIZE to n coefficients. -/
def mdct_block (ops : FloatFns) (n : ℕ) (block : List ℚ) : List ℚ :=
  (List.range n).map (fun k =>
    (((List.range FRAME_SIZE).map
        (fun i => block.getD i 0 * ops.cos (mdctAngle n k i))).sum) * mdctNorm ops n)

/-- `MdctTables::imdct_block`: n coefficients to FRAME_SIZE output samples. -/
def imdct_block (ops : FloatFns) (n : ℕ) (coeffs : List ℚ) : List ℚ :=
  (List.range FRAME_SIZE).map (fun i =>
    (((List.range n).map
        (fun k => coeffs.getD k 0 * ops.cos (mdctAngle n k i))).sum) * mdctNorm ops n)

/-! ## Encoder (codec.rs lines 393-566) -/

/-- Channel `c` of the deinterleave loop `per_chan[i % ch].push(s)`: the
samples at positions `c, c + ch, c + 2·ch, …`.  Structural fuel equal to the
list length makes the definition computable by structural recursion. -/
def everyNthAux : ℕ → List ℚ → ℕ → List ℚ
  | 0, _, _ => []
  | _ + 1, [], _ => []
  | fuel + 1, x :: xs, ch => x :: everyNthAux fuel (xs.drop (ch - 1)) ch

/-- Channel `c` of `deinterleave` applied to `samples` with `ch` channels. -/
def channelOf (samples : List ℚ) (ch c : ℕ) : List ℚ :=
  everyNthAux samples.length (samples.drop c) ch

/-- The deinterleave loop of `Encoder::encode` (codec.rs lines 427-431). -/
def deinterleave (samples : List ℚ) (ch : ℕ) : List (List ℚ) :=
  (List.range ch).map (channelOf samples ch)

/-- Per-channel padding (codec.rs lines 434-447): `HOP_SIZE/2` leading zeros,
the channel samples, zero-padding to a multiple of `HOP_SIZE`, then
`HOP_SIZE/2` trailing zeros. -/
def padChannel (chan : List ℚ) : List ℚ :=
  let v := List.replicate (HOP_SIZE / 2) 0 ++ chan
  let rem := v.length % HOP_SIZE
  let v2 := if rem ≠ 0 then v ++ List.replicate (HOP_SIZE - rem) 0 else v
  v2 ++ List.replicate (HOP_SIZE / 2) 0

/-- The windowed block `block[i] = slice[i] * window[i]` (codec.rs 477-481). -/
def windowedBlock (ops : FloatFns) (slice : List ℚ) : List ℚ :=
  (List.range FRAME_SIZE).map (fun i => slice.getD i 0 * (theWindow ops).getD i 0)

/-- Conversion of one windowed sample to the raw i16 payload entry:
`(sample * 32767.0).clamp(-32768.0, 32767.0) as i16` (codec.rs 498-502). -/
def i16FromSample (s : ℚ) : ℤ :=
  ratTrunc (clampQ (s * 32767) (-32768) 32767)

/-- The raw fallback samples one channel contributes to `raw_frame_samples`
(pushed consecutively, channel after channel, in the source loop). -/
def rawChannelSamples (ops : FloatFns) (slice : List ℚ) : List ℤ :=
  (windowedBlock ops slice).map i16FromSample

/-- The per-channel work of the frame-encoding closure (codec.rs 471-503):
slice, window, MDCT, scale, thresholds, sparse quantization, raw samples.
Returns `(sparse, scale_factor, raw_samples)`; the only panic source is the
slice bound check. -/
def encodeChannel (ops : FloatFns) (perceptual : PerceptualWeights)
    (padded_c : List ℚ) (fi : ℕ) :
    Except GlcError (List (ℕ × ℤ) × ℚ × List ℤ) :=
  match listSlice padded_c (fi * HOP_SIZE) FRAME_SIZE with
  | .error e => .error e
  | .ok slice =>
    let block := windowedBlock ops slice
    let coeffs := mdct_block ops HOP_SIZE block
    let max_val := max (maxAbs coeffs) SCALE_FLOOR_ENC
    let thresholds := compute_masking_thresholds ops coeffs QUALITY_FACTOR perceptual
    let sparse := compress_coefficients ops coeffs max_val thresholds NOISE_FLOOR_DB
    let raw := rawChannelSamples ops slice
    .ok (sparse, max_val, raw)

/-- The frame-encoding closure (codec.rs 462-541): run every channel, then
decide between the sparse and the raw representation by the size estimate. -/
def encodeFrame (ops : FloatFns) (perceptual : PerceptualWeights)
    (padded : List (List ℚ)) (fi : ℕ) : Except GlcError EncodedFrame :=
  match exceptMap (fun pc => encodeChannel ops perceptual pc fi) padded with
  | .error e => .error e
  | .ok results =>
    let sparse_coeffs_per_channel := results.map (fun r => r.1)
    let scale_factors := results.map (fun r => r.2.1)
    let raw_frame_samples := (results.map (fun r => r.2.2)).flatten
    let ch := padded.length
    let compressed_size :=
      (sparse_coeffs_per_channel.map (fun s => 8 + s.length * 4)).sum
        + (8 + scale_factors.length * 4) + 64
    let raw_size := FRAME_SIZE * ch * 2
    if ((raw_size : ℚ) * COMPRESSION_THRESHOLD) ≤ (compressed_size : ℚ) then
      .ok { sparse_coeffs_per_channel := []
            scale_factors := []
            raw_pcm := some raw_frame_samples }
    else
      .ok { sparse_coeffs_per_channel := sparse_coeffs_per_channel
            scale_factors := scale_factors
            raw_pcm := none }

/-- `Encoder::encode` (codec.rs 421-565).  `channels = 0` makes the source
divide by zero (`samples.len() / ch`), a panic.  The `sample_rate` argument is
the field of `Encoder::new`. -/
def encode (ops : FloatFns) (sample_rate : ℕ) (samples : List ℚ)
    (channels : ℕ) : Except GlcError EncodedAudio :=
  if channels = 0 then .error .panicked
  else
    let total_samples := samples.length
    let ch := channels
    let per_chan := deinterleave samples ch
    let padded := per_chan.map padChannel
    let p0len := (padded.getD 0 []).length
    let num_frames := if p0len < FRAME_SIZE then 1
                      else (p0len - FRAME_SIZE) / HOP_SIZE + 1
    let perceptual := PerceptualWeights.new HOP_SIZE sample_rate
    match exceptMap (encodeFrame ops perceptual padded) (List.range num_frames) with
    | .error e => .error e
    | .ok frames =>
      let padded_len := p0len
      let orig_len := (per_chan.getD 0 []).length
      let padding := padded_len - orig_len - HOP_SIZE / 2
      let encoder_delay := HOP_SIZE / 2
      .ok { header := { sample_rate := sample_rate
                        channels := channels
                        total_samples := total_samples }
            frames := frames
            gapless_info := { encoder_delay := encoder_delay
                              padding := padding
                              original_length := total_samples } }

/-! ## Decoder (codec.rs 568-769) -/

/-- Coefficient reconstruction from the sparse representation (codec.rs
650-665): zero-initialize `n` coefficients, then for each `(index, q)` with
`index < n` set `coeffs[index] = (q / 2^15) * scale`; out-of-range indices are
skipped by the explicit bound check of the source. -/
def reconstructCoeffs (n : ℕ) (scale : ℚ) (sparse : List (ℕ × ℤ)) : List ℚ :=
  sparse.foldl
    (fun coeffs iq =>
      if iq.1 < n then coeffs.set iq.1 (((iq.2 : ℚ) / 32768) * scale) else coeffs)
    (List.replicate n 0)

/-- Raw-PCM channel decode (codec.rs 629-643): read the interleaved position
`i * channels + c` when it is within the payload, else leave the zero. -/
def rawChannelBlock (channels c : ℕ) (raw_pcm : List ℤ) : List ℚ :=
  (List.range FRAME_SIZE).map (fun i =>
    let sample_idx := i * channels + c
    if sample_idx < raw_pcm.length then ((raw_pcm.getD sample_idx 0 : ℤ) : ℚ) / 32767
    else 0)

/-- Per-frame decode into per-channel synthesis blocks (codec.rs 620-682).
The spectral path indexes `sparse_coeffs_per_channel[ch]` and
`scale_factors[ch]`, which panics on a malformed frame. -/
def decodeFrameBlocks (ops : FloatFns) (channels : ℕ) (frame : EncodedFrame) :
    Except GlcError (List (List ℚ)) :=
  match frame.raw_pcm with
  | some raw_pcm =>
    .ok ((List.range channels).map (fun c => rawChannelBlock channels c raw_pcm))
  | none =>
    exceptMap (fun c =>
      match listIndex frame.sparse_coeffs_per_channel c with
      | .error e => .error e
      | .ok sparse_data =>
        match listIndex frame.scale_factors c with
        | .error e => .error e
        | .ok sf =>
          let scale := max sf SCALE_FLOOR_DEC
          let coeffs := reconstructCoeffs HOP_SIZE scale sparse_data
          let out_block := imdct_block ops HOP_SIZE coeffs
          .ok ((List.range FRAME_SIZE).map
            (fun i => out_block.getD i 0 * (theWindow ops).getD i 0)))
      (List.range channels)

/-- State of the sequential overlap-add loop: per-channel overlap buffers, the
accumulating chunk, and the chunks already flushed (in order). -/
structure DecodeState where
  overlap : List (List ℚ)
  chunk : List ℚ
  chunks : List (List ℚ)
  deriving DecidableEq, Repr

/-- The interleaved samples one frame emits: for `i < HOP_SIZE`, for each
channel `c`, `overlap[c][i] + blocks[c][i]` (codec.rs 690-698). -/
def emitSamples (channels : ℕ) (overlap blocks : List (List ℚ)) : List ℚ :=
  ((List.range HOP_SIZE).map (fun i =>
    (List.range channels).map (fun c =>
      (overlap.getD c []).getD i 0 + (blocks.getD c []).getD i 0))).flatten

/-- Overlap-add and flush for one frame (codec.rs 688-719): emit, update the
overlap buffers to `blocks[c][HOP_SIZE..FRAME_SIZE]`, then flush the chunk
when it reaches `FRAMES_PER_CHUNK * HOP_SIZE * channels` samples.  Frame
blocks always have length `FRAME_SIZE`, so `copy_from_slice` never panics. -/
def emitFrame (channels : ℕ) (st : DecodeState) (blocks : List (List ℚ)) :
    DecodeState :=
  let chunk2 := st.chunk ++ emitSamples channels st.overlap blocks
  let overlap2 := (List.range channels).map (fun c =>
    ((blocks.getD c []).drop HOP_SIZE).take (FRAME_SIZE - HOP_SIZE))
  if FRAMES_PER_CHUNK * HOP_SIZE * channels ≤ chunk2.length then
    { overlap := overlap2, chunk := [], chunks := st.chunks ++ [chunk2] }
  else
    { overlap := overlap2, chunk := chunk2, chunks := st.chunks }

/-- The final flush (codec.rs 722-729): the overlap buffers, interleaved. -/
def finalSamples (channels : ℕ) (overlap : List (List ℚ)) : List ℚ :=
  ((List.range HOP_SIZE).map (fun i =>
    (List.range channels).map (fun c => (overlap.getD c []).getD i 0))).flatten

/-- One frame of the decode loop: per-frame decode, then overlap-add and
flush. -/
def decodeStep (ops : FloatFns) (channels : ℕ) (st : DecodeState)
    (frame : EncodedFrame) : Except GlcError DecodeState :=
  match decodeFrameBlocks ops channels frame with
  | .error e => .error e
  | .ok blocks => .ok (emitFrame channels st blocks)

/-- `Decoder::decode_streaming` (codec.rs 595-741), as the ordered list of
chunks the worker sends.  The batched parallel decode sorts each batch by
frame index before the sequential overlap-add, so its chunk output equals
in-order per-frame processing, which is what is modelled; `channels` is read
from the stream header as in the source. -/
def decode_streaming (ops : FloatFns) (encoded : EncodedAudio) :
    Except GlcError (List (List ℚ)) :=
  let channels := encoded.header.channels
  let init : DecodeState :=
    { overlap := List.replicate channels (List.replicate HOP_SIZE 0)
      chunk := [], chunks := [] }
  match exceptFoldl (decodeStep ops channels) init encoded.frames with
  | .error e => .error e
  | .ok st => .ok (st.chunks ++ [st.chunk ++ finalSamples channels st.overlap])

/-- `Decoder::decode` (codec.rs 744-768): collect every chunk, then trim:
drain the first `encoder_delay` samples when strictly more are present, then
truncate to `original_length` when strictly longer. -/
def decode (ops : FloatFns) (encoded : EncodedAudio) :
    Except GlcError (List ℚ) :=
  match decode_streaming ops encoded with
  | .error e => .error e
  | .ok chunks =>
    let all := chunks.flatten
    let delay := encoded.gapless_info.encoder_delay
    let original_length := encoded.gapless_info.original_length
    let all2 := if delay < all.length then all.drop delay else all
    let all3 := if original_length < all2.length then all2.take original_length else all2
    .ok all3

/-! ## Container serializer (codec.rs 771-786)

Modelled from the spec: `save_encoded` / `load_encoded` delegate the wire
format to the external `bincode` crate and the byte transport to `std::fs`,
neither of which is code of this repository.  Following §4.6 of the
specification ("the exact byte layout is unspecified by this document but must
satisfy: (a) a round-trip identity holds for every in-range value"), a
structured little-endian binary layout is defined here: fixed-width
little-endian integers, `u64` length-prefixed sequences, a tag byte for
`Option`, and sign-byte plus magnitude for signed values.  The embedded scale
factors are rationals, stored exactly as numerator and denominator. -/

/-- Write `w` little-endian base-256 digits of `n`. -/
def writeLE : ℕ → ℕ → List ℕ
  | 0, _ => []
  | w + 1, n => n % 256 :: writeLE w (n / 256)

/-- Read `w` little-endian base-256 digits. -/
def readLE : ℕ → List ℕ → Option (ℕ × List ℕ)
  | 0, bs => some (0, bs)
  | _ + 1, [] => none
  | w + 1, b :: bs =>
    match readLE w bs with
    | none => none
    | some (n, rest) => some (b + 256 * n, rest)

/-- Write a signed value as a sign byte plus an 8-byte magnitude. -/
def writeInt (i : ℤ) : List ℕ :=
  (if i < 0 then 1 else 0) :: writeLE 8 i.natAbs

/-- Read a signed value. -/
def readInt (bs : List ℕ) : Option (ℤ × List ℕ) :=
  match bs with
  | [] => none
  | s :: bs =>
    match readLE 8 bs with
    | none => none
    | some (n, rest) => some (if s = 1 then -(n : ℤ) else (n : ℤ), rest)

/-- Write a rational scale factor exactly: numerator then denominator. -/
def writeRat (q : ℚ) : List ℕ :=
  writeInt q.num ++ writeLE 8 q.den

/-- Read a rational scale factor. -/
def readRat (bs : List ℕ) : Option (ℚ × List ℕ) :=
  match readInt bs with
  | none => none
  | some (n, rest) =>
    match readLE 8 rest with
    | none => none
    | some (d, rest2) => some ((n : ℚ) / (d : ℚ), rest2)

/-- Write a sequence: `u64` element count, then the elements. -/
def writeSeq {α : Type} (wf : α → List ℕ) (l : List α) : List ℕ :=
  writeLE 8 l.length ++ (l.map wf).flatten

/-- Read `k` consecutive elements. -/
def readCount {α : Type} (rf : List ℕ → Option (α × List ℕ)) :
    ℕ → List ℕ → Option (List α × List ℕ)
  | 0, bs => some ([], bs)
  | k + 1, bs =>
    match rf bs with
    | none => none
    | some (x, rest) =>
      match readCount rf k rest with
      | none => none
      | some (xs, rest2) => some (x :: xs, rest2)

/-- Read a sequence written by `writeSeq`. -/
def readSeq {α : Type} (rf : List ℕ → Option (α × List ℕ)) (bs : List ℕ) :
    Option (List α × List ℕ) :=
  match readLE 8 bs with
  | none => none
  | some (k, rest) => readCount rf k rest

/-- Write one sparse pair: `u16` index, signed value. -/
def writePair (p : ℕ × ℤ) : List ℕ :=
  writeLE 2 p.1 ++ writeInt p.2

/-- Read one sparse pair. -/
def readPair (bs : List ℕ) : Option ((ℕ × ℤ) × List ℕ) :=
  match readLE 2 bs with
  | none => none
  | some (i, rest) =>
    match readInt rest with
    | none => none
    | some (q, rest2) => some ((i, q), rest2)

/-- Write an optional raw payload: tag byte, then the samples when present. -/
def writeRaw (o : Option (List ℤ)) : List ℕ :=
  match o with
  | none => [0]
  | some l => 1 :: writeSeq writeInt l

/-- Read an optional raw payload. -/
def readRaw (bs : List ℕ) : Option (Option (List ℤ) × List ℕ) :=
  match bs with
  | [] => none
  | t :: rest =>
    if t = 0 then some (none, rest)
    else if t = 1 then
      match readSeq readInt rest with
      | none => none
      | some (l, rest2) => some (some l, rest2)
    else none

/-- Write one frame. -/
def writeFrame (fr : EncodedFrame) : List ℕ :=
  writeSeq (writeSeq writePair) fr.sparse_coeffs_per_channel
    ++ writeSeq writeRat fr.scale_factors
    ++ writeRaw fr.raw_pcm

/-- Read one frame. -/
def readFrame (bs : List ℕ) : Option (EncodedFrame × List ℕ) :=
  match readSeq (readSeq readPair) bs with
  | none => none
  | some (sc, rest) =>
    match readSeq readRat rest with
    | none => none
    | some (sf, rest2) =>
      match readRaw rest2 with
      | none => none
      | some (raw, rest3) =>
        some ({ sparse_coeffs_per_channel := sc, scale_factors := sf
                raw_pcm := raw }, rest3)

/-- Serialize a whole stream (the byte image `save_encoded` writes). -/
def save_encoded (s : EncodedAudio) : List ℕ :=
  writeLE 4 s.header.sample_rate ++ writeLE 2 s.header.channels
    ++ writeLE 8 s.header.total_samples
    ++ writeSeq writeFrame s.frames
    ++ writeLE 4 s.gapless_info.encoder_delay
    ++ writeLE 4 s.gapless_info.padding
    ++ writeLE 8 s.gapless_info.original_length

/-- Deserialize a whole stream; anything malformed (including trailing bytes)
is a `corruptStream` error. -/
def load_encoded (bs : List ℕ) : Except GlcError EncodedAudio :=
  match readLE 4 bs with
  | none => .error .corruptStream
  | some (sr, r1) =>
    match readLE 2 r1 with
    | none => .error .corruptStream
    | some (ch, r2) =>
      match readLE 8 r2 with
      | none => .error .corruptStream
      | some (ts, r3) =>
        match readSeq readFrame r3 with
        | none => .error .corruptStream
        | some (frames, r4) =>
          match readLE 4 r4 with
          | none => .error .corruptStream
          | some (delay, r5) =>
            match readLE 4 r5 with
            | none => .error .corruptStream
            | some (pad, r6) =>
              match readLE 8 r6 with
              | none => .error .corruptStream
              | some (ol, r7) =>
                if r7.isEmpty then
                  .ok { header := { sample_rate := sr, channels := ch
                                    total_samples := ts }
                        frames := frames
                        gapless_info := { encoder_delay := delay, padding := pad
                                          original_length := ol } }
                else .error .corruptStream

/-- Width bounds under which a signed value is serializable. -/
def intInRange (i : ℤ) : Prop := i.natAbs < 256 ^ 8

/-- Width bounds under which a rational scale factor is serializable. -/
def ratInRange (q : ℚ) : Prop := q.num.natAbs < 256 ^ 8 ∧ q.den < 256 ^ 8

/-- Width bounds under which one frame is serializable: list lengths fit in a
`u64` count, indices in a `u16`, values and scale factors in their fields. -/
def frameInRange (fr : EncodedFrame) : Prop :=
  fr.sparse_coeffs_per_channel.length < 256 ^ 8
    ∧ (∀ l ∈ fr.sparse_coeffs_per_channel,
        l.length < 256 ^ 8 ∧ ∀ p ∈ l, p.1 < 256 ^ 2 ∧ intInRange p.2)
    ∧ fr.scale_factors.length < 256 ^ 8
    ∧ (∀ q ∈ fr.scale_factors, ratInRange q)
    ∧ (∀ raw, fr.raw_pcm = some raw →
        raw.length < 256 ^ 8 ∧ ∀ v ∈ raw, intInRange v)

/-- The serializable range of a whole stream (§4.6: "every in-range value"). -/
def streamInRange (s : EncodedAudio) : Prop :=
  s.header.sample_rate < 256 ^ 4
    ∧ s.header.channels < 256 ^ 2
    ∧ s.header.total_samples < 256 ^ 8
    ∧ s.frames.length < 256 ^ 8
    ∧ (∀ fr ∈ s.frames, frameInRange fr)
    ∧ s.gapless_info.encoder_delay < 256 ^ 4
    ∧ s.gapless_info.padding < 256 ^ 4
    ∧ s.gapless_info.original_length < 256 ^ 8

/-! ## Concrete instantiation used by witnesses and counterexamples -/

/-- A concrete rational stand-in for the `f32` transcendental functions, used
by claims whose statements are value-independent (lengths, error propagation,
panic reachability, payload positions): there the instantiation only has to be
some definite `FloatFns`. -/
def refOps : FloatFns :=
  { sin := fun _ => 1/2
    cos := fun _ => 0
    sqrt := fun q => q
    log2 := fun _ => 0
    pow10 := fun _ => 1/250 }

/-- The `FloatFns` instantiation of the C4 counterexample.  At the only points
the C4 pipeline queries, these values agree with `f32` evaluation: `sqrt` is
queried once, at the band mean square `((6399/1600)² + (1/10)²) / 4
= (6401/3200)²` (a scaled Pythagorean triple), where the constant `6401/3200`
is the exact square root; `pow10` is queried once, at `-48/20`, where `1/250
= 0.004` approximates `10^(-2.4) ≈ 0.0039811` to 0.5 %.  Every comparison in
the counterexample has a margin of a factor ≥ 1.8 over these values, far above
`f32` rounding.  `sin` and `cos` are not reached, and `log2` only enters the
importance-bits value, which is clamped to at least 8 and cannot cause a
discard. -/
def c4Ops : FloatFns :=
  { sin := fun _ => 1/2
    cos := fun _ => 0
    sqrt := fun _ => 6401/3200
    log2 := fun _ => 0
    pow10 := fun _ => 1/250 }

/-- Claim C1 as stated: encode then decode succeeds and preserves the exact
interleaved length. -/
def lengthRoundTripOk (ops : FloatFns) (sr : ℕ) (samples : List ℚ)
    (channels : ℕ) : Prop :=
  ∃ stream out, encode ops sr samples channels = .ok stream
    ∧ decode ops stream = .ok out
    ∧ out.length = samples.length

/-- Claim C4 as stated: a coefficient at bin `k` is discarded exactly when its
magnitude is at most the noise floor `L = 10^(-48/20) · S`, or at most the
per-bin masking threshold `T[k]` of step 4 (unscaled), or its fixed-denominator
quantized value rounds to zero. -/
def c4DiscardClaim (ops : FloatFns) (sr : ℕ) (coeffs : List ℚ) : Prop :=
  let scale := max (maxAbs coeffs) SCALE_FLOOR_ENC
  let perceptual := PerceptualWeights.new coeffs.length sr
  let thresholds := compute_masking_thresholds ops coeffs QUALITY_FACTOR perceptual
  let noise_floor_linear := ops.pow10 (NOISE_FLOOR_DB / 20) * scale
  let sparse := compress_coefficients ops coeffs scale thresholds NOISE_FLOOR_DB
  ∀ k, k < coeffs.length →
    ((∀ q, (k, q) ∉ sparse) ↔
      (|coeffs.getD k 0| ≤ noise_floor_linear
        ∨ |coeffs.getD k 0| ≤ thresholds.getD k 0
        ∨ clampZ (rustRound (coeffs.getD k 0 / scale * 32768)) (-32768) 32767 = 0))

/-- Discard characterization with the threshold the code actually compares
against: `thresholds[k] * scale` (the source multiplies the masking threshold
by the scale factor in `compress_coefficients`, line 288). -/
def c4DiscardAmended (ops : FloatFns) (sr : ℕ) (coeffs : List ℚ) : Prop :=
  let scale := max (maxAbs coeffs) SCALE_FLOOR_ENC
  let perceptual := PerceptualWeights.new coeffs.length sr
  let thresholds := compute_masking_thresholds ops coeffs QUALITY_FACTOR perceptual
  let noise_floor_linear := ops.pow10 (NOISE_FLOOR_DB / 20) * scale
  let sparse := compress_coefficients ops coeffs scale thresholds NOISE_FLOOR_DB
  ∀ k, k < coeffs.length →
    ((∀ q, (k, q) ∉ sparse) ↔
      (|coeffs.getD k 0| ≤ noise_floor_linear
        ∨ |coeffs.getD k 0| ≤ thresholds.getD k 0 * scale
        ∨ clampZ (rustRound (coeffs.getD k 0 / scale * 32768)) (-32768) 32767 = 0))

/-- The coefficient vector of the C4 counterexample.  The two nonzero entries
are a scaled Pythagorean pair (`6399² + 160² = 6401²`), so the band RMS energy
is exactly `6401/3200` and `c4Ops.sqrt` is exact at the one point queried. -/
def c4Coeffs : List ℚ := [6399/1600, 1/10, 0, 0]

/-- The padded per-channel length as a function of the channel length: round
`HOP_SIZE/2 + L` up to a multiple of `HOP_SIZE`, then add the trailing
`HOP_SIZE/2` zeros. -/
def paddedLen (L : ℕ) : ℕ :=
  let m := HOP_SIZE / 2 + L
  (if m % HOP_SIZE ≠ 0 then m + (HOP_SIZE - m % HOP_SIZE) else m) + HOP_SIZE / 2

/-- Length of channel `c` after deinterleaving `len` samples over `ch`
channels (channel `c` receives the samples at indices congruent to `c`). -/
def chanLen (len ch c : ℕ) : ℕ :=
  (len - c + ch - 1) / ch

/-- The frame count computed by `Encoder::encode` (codec.rs 449-455) from the
padded per-channel length. -/
def numFramesOf (p0 : ℕ) : ℕ :=
  if p0 < FRAME_SIZE then 1 else (p0 - FRAME_SIZE) / HOP_SIZE + 1

/-- The shape a frame needs for the decoder's per-channel indexing not to
panic: a spectral frame carries at least `ch` sparse lists and scale factors. -/
def frameWF (ch : ℕ) (fr : EncodedFrame) : Prop :=
  fr.raw_pcm = none →
    ch ≤ fr.sparse_coeffs_per_channel.length ∧ ch ≤ fr.scale_factors.length

/-- The spectral-frame invariants of claim C8, phrased over the result of
`encode` (vacuous on an error). -/
def spectralOk (e : Except GlcError EncodedAudio) : Prop :=
  ∀ s, e = .ok s → ∀ fr ∈ s.frames, fr.raw_pcm = none →
    (∀ l ∈ fr.sparse_coeffs_per_channel,
      (∀ p ∈ l, p.1 < HOP_SIZE) ∧ (l.map Prod.fst).Nodup)
    ∧ ∀ sc ∈ fr.scale_factors, 0 < sc

/-- A stereo stream (no frames are needed) on which the decode trim of claim
C2 diverges from the code. -/
def c2Stream : EncodedAudio :=
  { header := { sample_rate := 44100, channels := 2, total_samples := 2000 }
    frames := []
    gapless_info := { encoder_delay := 512, padding := 0, original_length := 2000 } }

/-- A minimal mono stream for the C10 witness. -/
def c10Stream : EncodedAudio :=
  { header := { sample_rate := 44100, channels := 1, total_samples := 0 }
    frames := []
    gapless_info := { encoder_delay := 512, padding := 0, original_length := 0 } }

/-- A small concrete stream exercising both frame variants, for the C7
witness. -/
def c7Stream : EncodedAudio :=
  { header := { sample_rate := 44100, channels := 1, total_samples := 4 }
    frames := [ { sparse_coeffs_per_channel := [[(3, 5), (0, -2)]]
                  scale_factors := [1]
                  raw_pcm := none }
              , { sparse_coeffs_per_channel := []
                  scale_factors := []
                  raw_pcm := some [0, -1, 32767] } ]
    gapless_info := { encoder_delay := 512, padding := 1020, original_length := 4 } }

/-! # Groundwork lemmas: padding and deinterleave lengths -/

/-- Claim C3's asserted payload layout, modelled from the claim: an interleaved
buffer of exactly `FRAME_SIZE * channels` i16 samples in which position
`i * channels + c` holds channel `c`'s windowed sample `i`, scaled by 32767 and
clamped — the layout the decoder's `rawChannelBlock` unpacks. -/
def interleavedLayoutOk (ops : FloatFns) (slices : List (List ℚ))
    (payload : List ℤ) : Prop :=
  payload.length = FRAME_SIZE * slices.length
    ∧ ∀ i < FRAME_SIZE, ∀ c < slices.length,
        payload.getD (i * slices.length + c) 0
          = i16FromSample ((slices.getD c []).getD i 0 * (theWindow ops).getD i 0)

/-- The raw payload `raw_frame_samples` the encoder builds (codec.rs 496-502)
for a stereo frame whose channel-0 slice is all `1` and channel-1 slice is all
`-1`: each channel's 2048 raw samples are pushed consecutively, channel after
channel. -/
def c3Payload : List ℤ :=
  ([List.replicate FRAME_SIZE (1:ℚ), List.replicate FRAME_SIZE (-1:ℚ)].map
    (rawChannelSamples refOps)).flatten

theorem padChannel_length (xs : List ℚ) :
    (padChannel xs).length = paddedLen xs.length := by
  by_cases h : (HOP_SIZE / 2 + xs.length) % HOP_SIZE ≠ 0 <;>
    simp [padChannel, paddedLen, h, List.length_append] <;> omega

theorem paddedLen_mod (L : ℕ) : paddedLen L % HOP_SIZE = HOP_SIZE / 2 := by
  simp only [paddedLen, HOP_SIZE]
  split <;> omega

theorem paddedLen_lb (L : ℕ) : L + HOP_SIZE ≤ paddedLen L := by
  simp only [paddedLen, HOP_SIZE]
  split <;> omega

theorem paddedLen_big {L : ℕ} (h : 513 ≤ L) : 2560 ≤ paddedLen L := by
  simp only [paddedLen, HOP_SIZE]
  split <;> omega

theorem everyNthAux_length :
    ∀ (fuel : ℕ) (xs : List ℚ) (ch : ℕ), 1 ≤ ch → xs.length ≤ fuel →
      (everyNthAux fuel xs ch).length = (xs.length + ch - 1) / ch := by
  intro fuel
  induction fuel with
  | zero =>
    intro xs ch hch hle
    have hxs : xs = [] := List.eq_nil_of_length_eq_zero (by omega)
    subst hxs
    simp only [everyNthAux, List.length_nil, Nat.zero_add]
    exact (Nat.div_eq_of_lt (by omega)).symm
  | succ n ih =>
    intro xs ch hch hle
    cases xs with
    | nil =>
      simp only [everyNthAux, List.length_nil, Nat.zero_add]
      exact (Nat.div_eq_of_lt (by omega)).symm
    | cons x xs =>
      simp only [everyNthAux, List.length_cons]
      rw [ih (xs.drop (ch - 1)) ch hch
        (by simp only [List.length_drop, List.length_cons] at hle ⊢; omega)]
      simp only [List.length_drop]
      rcases le_or_lt (ch - 1) xs.length with h | h
      · have h1 : xs.length - (ch - 1) + ch - 1 = xs.length := by omega
        have h2 : xs.length + 1 + ch - 1 = xs.length + ch := by omega
        rw [h1, h2, Nat.add_div_right _ (by omega)]
      · have h1 : xs.length - (ch - 1) + ch - 1 = ch - 1 := by omega
        have h2 : xs.length + 1 + ch - 1 = xs.length + ch := by omega
        rw [h1, h2, Nat.add_div_right _ (by omega),
          Nat.div_eq_of_lt (show ch - 1 < ch by omega),
          Nat.div_eq_of_lt (show xs.length < ch by omega)]

theorem channelOf_length (samples : List ℚ) (ch c : ℕ) (hch : 1 ≤ ch) :
    (channelOf samples ch c).length = (samples.length - c + ch - 1) / ch := by
  unfold channelOf
  rw [everyNthAux_length _ _ _ hch (by simp [List.length_drop])]
  simp [List.length_drop]

theorem channelOf_length_of_dvd (samples : List ℚ) (ch c : ℕ) (hch : 1 ≤ ch)
    (hc : c < ch) (hdvd : samples.length % ch = 0) :
    (channelOf samples ch c).length = samples.length / ch := by
  rw [channelOf_length _ _ _ hch]
  obtain ⟨q, hq⟩ := Nat.dvd_of_mod_eq_zero hdvd
  rw [hq]
  rcases le_or_lt c (ch * q) with h | h
  · have h1 : ch * q - c + ch - 1 = ch * q + (ch - 1 - c) := by omega
    rw [h1, Nat.mul_add_div (by omega), Nat.div_eq_of_lt (by omega),
      Nat.mul_div_cancel_left _ (show 0 < ch by omega)]
    omega
  · have hq0 : q = 0 := by
      by_contra hq0
      have : ch ≤ ch * q := Nat.le_mul_of_pos_right ch (by omega)
      omega
    subst hq0
    simp only [Nat.mul_zero, Nat.zero_sub, Nat.zero_div]
    exact Nat.div_eq_of_lt (by omega)

theorem deinterleave_length (samples : List ℚ) (ch : ℕ) :
    (deinterleave samples ch).length = ch := by
  simp [deinterleave]

theorem deinterleave_getD (samples : List ℚ) (ch c : ℕ) (hc : c < ch) :
    (deinterleave samples ch).getD c [] = channelOf samples ch c := by
  simp [deinterleave, List.getD_eq_getElem?_getD, List.getElem?_map,
    List.getElem?_range, hc]

/-- Claim C5, amended: the padded per-channel length is congruent to
`HOP_SIZE / 2` (not `0`) modulo the hop: the `HOP_SIZE/2` trailing zeros are
appended after rounding up to a hop multiple. -/
theorem c5_padded_mod_amended (xs : List ℚ) :
    (padChannel xs).length % HOP_SIZE = HOP_SIZE / 2 := by
  rw [padChannel_length]
  exact paddedLen_mod xs.length

/-- Claim C5 as stated is false: for the mono input of 1024 zero samples the
padded per-channel length is 2560, and 2560 mod 1024 = 512 ≠ 0. -/
theorem c5_counterexample :
    ¬ ((padChannel (channelOf (List.replicate 1024 (0:ℚ)) 1 0)).length
        % HOP_SIZE = 0) := by
  rw [padChannel_length]
  have h : (channelOf (List.replicate 1024 (0:ℚ)) 1 0).length = 1024 := by
    rw [channelOf_length _ _ _ (by norm_num)]
    simp
  rw [h]
  decide

/-! # Decoder coefficient reconstruction (claim C9) -/

theorem reconstruct_foldl_filter (n : ℕ) (scale : ℚ) :
    ∀ (sparse : List (ℕ × ℤ)) (acc : List ℚ),
      sparse.foldl
          (fun coeffs iq =>
            if iq.1 < n then coeffs.set iq.1 (((iq.2 : ℚ) / 32768) * scale)
            else coeffs) acc
        = (sparse.filter (fun p => p.1 < n)).foldl
            (fun coeffs iq =>
              if iq.1 < n then coeffs.set iq.1 (((iq.2 : ℚ) / 32768) * scale)
              else coeffs) acc := by
  intro sparse
  induction sparse with
  | nil => intro acc; rfl
  | cons p rest ih =>
    intro acc
    by_cases hp : p.1 < n <;> simp [List.foldl_cons, List.filter_cons, hp, ih]

theorem reconstruct_foldl_length (n : ℕ) (scale : ℚ) :
    ∀ (sparse : List (ℕ × ℤ)) (acc : List ℚ),
      (sparse.foldl
          (fun coeffs iq =>
            if iq.1 < n then coeffs.set iq.1 (((iq.2 : ℚ) / 32768) * scale)
            else coeffs) acc).length = acc.length := by
  intro sparse
  induction sparse with
  | nil => intro acc; rfl
  | cons p rest ih =>
    intro acc
    by_cases hp : p.1 < n <;> simp [List.foldl_cons, hp, ih]

/-- Claim C9: a sparse pair whose index is ≥ N sets no coefficient — the
reconstruction equals the reconstruction of the in-range pairs only, and it
always yields a full vector of N coefficients (decoding succeeds). -/
theorem c9_out_of_range_ignored (n : ℕ) (scale : ℚ) (sparse : List (ℕ × ℤ)) :
    reconstructCoeffs n scale sparse
        = reconstructCoeffs n scale (sparse.filter (fun p => p.1 < n))
      ∧ (reconstructCoeffs n scale sparse).length = n := by
  constructor
  · unfold reconstructCoeffs
    rw [reconstruct_foldl_filter]
  · unfold reconstructCoeffs
    rw [reconstruct_foldl_length]
    exact List.length_replicate n 0

/-! # Container serializer round-trip (claim C7) -/

theorem readLE_writeLE (w : ℕ) :
    ∀ (n : ℕ) (rest : List ℕ), n < 256 ^ w →
      readLE w (writeLE w n ++ rest) = some (n, rest) := by
  induction w with
  | zero =>
    intro n rest h
    simp only [pow_zero, Nat.lt_one_iff] at h
    subst h
    rfl
  | succ w ih =>
    intro n rest h
    have hdiv : n / 256 < 256 ^ w := by
      rw [Nat.div_lt_iff_lt_mul (by norm_num)]
      calc n < 256 ^ (w + 1) := h
        _ = 256 ^ w * 256 := by rw [pow_succ]
    simp only [writeLE, readLE, List.cons_append, List.append_eq,
      ih (n / 256) rest hdiv]
    simp [Nat.mod_add_div]

theorem readLE_writeLE_nil (w n : ℕ) (h : n < 256 ^ w) :
    readLE w (writeLE w n) = some (n, []) := by
  have := readLE_writeLE w n [] h
  rwa [List.append_nil] at this

theorem readInt_writeInt (i : ℤ) (rest : List ℕ) (h : intInRange i) :
    readInt (writeInt i ++ rest) = some (i, rest) := by
  unfold intInRange at h
  by_cases hi : i < 0
  · simp only [writeInt, hi, if_pos, List.cons_append, readInt]
    rw [readLE_writeLE 8 i.natAbs rest h]
    simp only [if_pos rfl]
    congr 1
    have : ((i.natAbs : ℕ) : ℤ) = -i := Int.ofNat_natAbs_of_nonpos (le_of_lt hi)
    rw [this]
    simp
  · simp only [writeInt, hi, if_neg, List.cons_append, readInt]
    rw [readLE_writeLE 8 i.natAbs rest h]
    have h1 : (0 : ℕ) ≠ 1 := by norm_num
    simp only [h1, if_false]
    congr 1
    have : ((i.natAbs : ℕ) : ℤ) = i := Int.natAbs_of_nonneg (by omega)
    rw [this]

theorem readRat_writeRat (q : ℚ) (rest : List ℕ) (h : ratInRange q) :
    readRat (writeRat q ++ rest) = some (q, rest) := by
  unfold writeRat readRat
  simp only [List.append_assoc, readInt_writeInt q.num _ h.1,
    readLE_writeLE 8 q.den rest h.2]
  simp [Rat.num_div_den]

theorem readCount_flatten {α : Type} (rf : List ℕ → Option (α × List ℕ))
    (wf : α → List ℕ) :
    ∀ (l : List α) (rest : List ℕ),
      (∀ x ∈ l, ∀ r, rf (wf x ++ r) = some (x, r)) →
      readCount rf l.length ((l.map wf).flatten ++ rest) = some (l, rest) := by
  intro l
  induction l with
  | nil => intro rest _; rfl
  | cons x xs ih =>
    intro rest hall
    simp only [List.length_cons, List.map_cons, List.flatten_cons, readCount,
      List.append_assoc, hall x (by simp),
      ih rest (fun y hy r => hall y (by simp [hy]) r)]

theorem readSeq_writeSeq {α : Type} (rf : List ℕ → Option (α × List ℕ))
    (wf : α → List ℕ) (l : List α) (rest : List ℕ) (hlen : l.length < 256 ^ 8)
    (hall : ∀ x ∈ l, ∀ r, rf (wf x ++ r) = some (x, r)) :
    readSeq rf (writeSeq wf l ++ rest) = some (l, rest) := by
  unfold writeSeq readSeq
  rw [List.append_assoc, readLE_writeLE 8 l.length _ hlen]
  exact readCount_flatten rf wf l rest hall

theorem readPair_writePair (p : ℕ × ℤ) (rest : List ℕ)
    (h : p.1 < 256 ^ 2 ∧ intInRange p.2) :
    readPair (writePair p ++ rest) = some (p, rest) := by
  unfold writePair readPair
  simp only [List.append_assoc, readLE_writeLE 2 p.1 _ h.1,
    readInt_writeInt p.2 rest h.2]

theorem readRaw_writeRaw (o : Option (List ℤ)) (rest : List ℕ)
    (h : ∀ raw, o = some raw → raw.length < 256 ^ 8 ∧ ∀ v ∈ raw, intInRange v) :
    readRaw (writeRaw o ++ rest) = some (o, rest) := by
  cases o with
  | none => rfl
  | some l =>
    obtain ⟨hlen, hall⟩ := h l rfl
    simp only [writeRaw, List.cons_append, readRaw,
      readSeq_writeSeq readInt writeInt l rest hlen
        (fun v hv r => readInt_writeInt v r (hall v hv))]
    norm_num

theorem readFrame_writeFrame (fr : EncodedFrame) (rest : List ℕ)
    (h : frameInRange fr) :
    readFrame (writeFrame fr ++ rest) = some (fr, rest) := by
  obtain ⟨h1, h2, h3, h4, h5⟩ := h
  unfold writeFrame readFrame
  simp only [List.append_assoc,
    readSeq_writeSeq (readSeq readPair) (writeSeq writePair) _ _ h1
      (fun l hl r => readSeq_writeSeq readPair writePair l r (h2 l hl).1
        (fun p hp r2 => readPair_writePair p r2 ((h2 l hl).2 p hp))),
    readSeq_writeSeq readRat writeRat _ _ h3
      (fun q hq r => readRat_writeRat q r (h4 q hq)),
    readRaw_writeRaw fr.raw_pcm rest h5]

/-- Claim C7 (spec-modelled serializer): the container round-trip identity
`load(save(stream)) = stream` holds for every stream in the serializable
range. -/
theorem c7_container_roundtrip (s : EncodedAudio) (h : streamInRange s) :
    load_encoded (save_encoded s) = .ok s := by
  obtain ⟨h1, h2, h3, h4, h5, h6, h7, h8⟩ := h
  unfold save_encoded load_encoded
  simp only [List.append_assoc, readLE_writeLE 4 _ _ h1, readLE_writeLE 2 _ _ h2,
    readLE_writeLE 8 _ _ h3,
    readSeq_writeSeq readFrame writeFrame _ _ h4
      (fun fr hfr r => readFrame_writeFrame fr r (h5 fr hfr)),
    readLE_writeLE 4 _ _ h6, readLE_writeLE 4 _ _ h7,
    readLE_writeLE_nil 8 _ h8]
  rfl

/-- Witness for C7: a concrete small stream with one spectral and one raw
frame is in range, and its round trip is the identity. -/
theorem c7_witness :
    streamInRange c7Stream
      ∧ load_encoded (save_encoded c7Stream) = .ok c7Stream := by
  have hin : streamInRange c7Stream := by
    refine ⟨by norm_num [c7Stream], by norm_num [c7Stream], by norm_num [c7Stream],
      by norm_num [c7Stream], ?_, by norm_num [c7Stream], by norm_num [c7Stream],
      by norm_num [c7Stream]⟩
    intro fr hfr
    simp only [c7Stream, List.mem_cons, List.not_mem_nil, or_false] at hfr
    rcases hfr with h | h <;> subst h <;>
      refine ⟨by norm_num, ?_, by norm_num, ?_, ?_⟩ <;>
      simp only [frameInRange, ratInRange, intInRange] <;>
      first
        | (rintro l (rfl | rfl | h) <;> first
            | (refine ⟨by norm_num, ?_⟩
               rintro p (rfl | rfl | hp) <;> norm_num)
            | simp_all)
        | (rintro q (rfl | rfl | h) <;> norm_num)
        | (rintro raw hraw <;> simp_all <;> norm_num)
  exact ⟨hin, c7_container_roundtrip c7Stream hin⟩

/-! # Quantizer lemmas (claims C4 and C8) -/

theorem compute_bits_pos (ops : FloatFns) (a t g : ℚ) (h : t < a) :
    compute_quantization_bits_fast ops a t g ≠ 0 := by
  unfold compute_quantization_bits_fast
  rw [if_neg (not_le.mpr h)]
  simp only [MIN_QUANTIZATION_BITS, MAX_QUANTIZATION_BITS]
  omega

theorem compressStep_none_iff (ops : FloatFns) (scale nfl gm : ℚ)
    (th : List ℚ) (k : ℕ) (c : ℚ) :
    compressStep ops scale nfl gm th (k, c) = none ↔
      (|c| ≤ nfl ∨ |c| ≤ th.getD k 0 * scale
        ∨ clampZ (rustRound (c / scale * 32768)) (-32768) 32767 = 0) := by
  unfold compressStep
  by_cases h1 : nfl < |c| ∧ th.getD k 0 * scale < |c|
  · rw [if_pos h1]
    have hb := compute_bits_pos ops |c| (th.getD k 0 * scale) gm h1.2
    simp only [hb, if_false]
    by_cases h2 : clampZ (rustRound (c / scale * 32768)) (-32768) 32767 = 0
    · simp [h2]
    · have h1a := h1.1
      have h1b := h1.2
      simp only [List.getD_eq_getElem?_getD] at h1b
      simp [h2, h1a.not_le, h1b.not_le]
  · rw [if_neg h1]
    push_neg at h1
    simp only [true_iff]
    by_cases ha : nfl < |c|
    · exact Or.inr (Or.inl (h1 ha))
    · exact Or.inl (not_lt.mp ha)

theorem compressStep_some_fst (ops : FloatFns) (scale nfl gm : ℚ)
    (th : List ℚ) (k : ℕ) (c : ℚ) (p : ℕ × ℤ)
    (h : compressStep ops scale nfl gm th (k, c) = some p) : p.1 = k % 65536 := by
  simp only [compressStep] at h
  split_ifs at h <;> cases h <;> rfl

theorem mem_enumFromL {α : Type} :
    ∀ (l : List α) (i : ℕ) (p : ℕ × α),
      p ∈ enumFromL i l ↔ ∃ j, j < l.length ∧ p.1 = i + j ∧ l.get? j = some p.2 := by
  intro l
  induction l with
  | nil => simp [enumFromL]
  | cons x xs ih =>
    intro i p
    obtain ⟨p1, p2⟩ := p
    simp only [enumFromL, List.mem_cons, ih, List.length_cons, Prod.mk.injEq]
    constructor
    · rintro (⟨rfl, rfl⟩ | ⟨j, hj, hp1, hp2⟩)
      · exact ⟨0, by omega, by omega, rfl⟩
      · exact ⟨j + 1, by omega, by omega, by simpa using hp2⟩
    · rintro ⟨j, hj, hp1, hp2⟩
      cases j with
      | zero =>
        left
        simp only [List.get?_cons_zero, Option.some.injEq] at hp2
        exact ⟨by omega, hp2.symm⟩
      | succ j =>
        right
        exact ⟨j, by omega, by omega, by simpa using hp2⟩

theorem filterMap_enumFrom_props {α β : Type} (g : ℕ × α → Option (ℕ × β))
    (hg : ∀ k c p, g (k, c) = some p → p.1 = k % 65536) :
    ∀ (l : List α) (i : ℕ), i + l.length ≤ 65536 →
      (∀ p ∈ (enumFromL i l).filterMap g, i ≤ p.1 ∧ p.1 < i + l.length)
        ∧ (((enumFromL i l).filterMap g).map Prod.fst).Pairwise (· < ·) := by
  intro l
  induction l with
  | nil => simp [enumFromL]
  | cons x xs ih =>
    intro i hle
    simp only [List.length_cons] at hle
    obtain ⟨ihm, ihp⟩ := ih (i + 1) (by omega)
    simp only [enumFromL, List.filterMap_cons, List.length_cons]
    cases hg0 : g (i, x) with
    | none =>
      refine ⟨fun p hp => ?_, ihp⟩
      have := ihm p hp
      omega
    | some p =>
      have hp1 : p.1 = i := by
        rw [hg _ _ _ hg0, Nat.mod_eq_of_lt (by omega)]
      constructor
      · rintro q hq
        rcases List.mem_cons.mp hq with rfl | hq2
        · omega
        · have := ihm q hq2
          omega
      · simp only [List.map_cons, List.pairwise_cons]
        refine ⟨fun b hb => ?_, ihp⟩
        obtain ⟨q, hq, rfl⟩ := List.mem_map.mp hb
        have := ihm q hq
        omega

theorem compress_props (ops : FloatFns) (coeffs : List ℚ) (scale : ℚ)
    (th : List ℚ) (db : ℚ) (hlen : coeffs.length ≤ 65536) :
    (∀ p ∈ compress_coefficients ops coeffs scale th db, p.1 < coeffs.length)
      ∧ ((compress_coefficients ops coeffs scale th db).map Prod.fst).Pairwise (· < ·) := by
  unfold compress_coefficients enumL
  have h := filterMap_enumFrom_props
    (compressStep ops scale (ops.pow10 (db / 20) * scale)
      (max (maxAbs coeffs) SCALE_FLOOR_ENC) th)
    (fun k c p hp => compressStep_some_fst _ _ _ _ _ _ _ _ hp)
    coeffs 0 (by omega)
  exact ⟨fun p hp => by have := h.1 p hp; omega, h.2⟩

theorem getD_eq_of_get? {α : Type} [Inhabited α] (l : List α) (k : ℕ) (c d : α)
    (h : l.get? k = some c) : l.getD k d = c := by
  simp [List.getD_eq_getElem?_getD, ← List.get?_eq_getElem?, h]

theorem compress_not_mem_iff (ops : FloatFns) (coeffs : List ℚ) (scale : ℚ)
    (th : List ℚ) (db : ℚ) (k : ℕ) (hk : k < coeffs.length)
    (hlen : coeffs.length ≤ 65536) :
    (∀ q, (k, q) ∉ compress_coefficients ops coeffs scale th db) ↔
      compressStep ops scale (ops.pow10 (db / 20) * scale)
        (max (maxAbs coeffs) SCALE_FLOOR_ENC) th (k, coeffs.getD k 0) = none := by
  unfold compress_coefficients enumL
  constructor
  · intro hall
    cases hstep : compressStep ops scale (ops.pow10 (db / 20) * scale)
        (max (maxAbs coeffs) SCALE_FLOOR_ENC) th (k, coeffs.getD k 0) with
    | none => rfl
    | some p =>
      exfalso
      have hfst : p.1 = k := by
        rw [compressStep_some_fst _ _ _ _ _ _ _ _ hstep, Nat.mod_eq_of_lt (by omega)]
      have hget : coeffs.get? k = some (coeffs.getD k 0) := by
        cases hg : coeffs.get? k with
        | none => exact absurd (List.get?_eq_none.mp hg) (by omega)
        | some c => rw [getD_eq_of_get? _ _ _ _ hg]
      have hmem : p ∈ (enumFromL 0 coeffs).filterMap
          (compressStep ops scale (ops.pow10 (db / 20) * scale)
            (max (maxAbs coeffs) SCALE_FLOOR_ENC) th) := by
        apply List.mem_filterMap.mpr
        exact ⟨(k, coeffs.getD k 0),
          (mem_enumFromL coeffs 0 _).mpr ⟨k, hk, by omega, hget⟩, hstep⟩
      obtain ⟨p1, p2⟩ := p
      simp only at hfst
      subst hfst
      exact hall p2 hmem
  · intro hnone q hq
    obtain ⟨⟨a1, a2⟩, ha, hstep⟩ := List.mem_filterMap.mp hq
    obtain ⟨j2, hj2, hjeq, hget⟩ := (mem_enumFromL coeffs 0 (a1, a2)).mp ha
    simp only [Nat.zero_add] at hjeq hget
    subst hjeq
    have hfst : k = a1 % 65536 := compressStep_some_fst _ _ _ _ _ _ _ _ hstep
    rw [Nat.mod_eq_of_lt (by omega)] at hfst
    subst hfst
    rw [getD_eq_of_get? _ _ _ (0 : ℚ) hget] at hnone
    rw [hnone] at hstep
    cases hstep

/-- Claim C4, amended: the code discards bin `k` exactly when its magnitude is
at most the noise floor, or at most `T[k] · S` — the masking threshold is
multiplied by the scale factor before the comparison — or the quantized value
rounds to zero (`compress_coefficients`, codec.rs 288-307; the bits heuristic
never discards on its own since its result is clamped to at least 8). -/
theorem c4_discard_amended (ops : FloatFns) (sr : ℕ) (coeffs : List ℚ)
    (hlen : coeffs.length ≤ 65536) : c4DiscardAmended ops sr coeffs := by
  simp only [c4DiscardAmended]
  intro k hk
  rw [compress_not_mem_iff ops coeffs _ _ _ k hk hlen, compressStep_none_iff]

/-- Witness for the amended C4 at a concrete coefficient vector. -/
theorem c4_discard_amended_witness :
    c4Coeffs.length ≤ 65536 ∧ c4DiscardAmended c4Ops 100 c4Coeffs :=
  ⟨by norm_num [c4Coeffs], c4_discard_amended c4Ops 100 c4Coeffs (by norm_num [c4Coeffs])⟩

/-! # Concrete evaluation for the C4 counterexample -/

theorem c4_bands_eval : compute_critical_bands 4 100 = [0, 4] := by
  unfold compute_critical_bands
  norm_num
  show criticalBandsLoop 4 50 (101 + 1) 0 [0] ++ [4] = [0, 4]
  rw [criticalBandsLoop]
  norm_num [ratTruncNat, ratTrunc, List.getLastD]
  show criticalBandsLoop 4 50 (100 + 1) 50 [0] ++ [4] = [0, 4]
  rw [criticalBandsLoop]
  norm_num

theorem c4_weights_eval :
    (List.range 4).map (perceptualWeightAt 100 4) = [3/10, 7/20, 2/5, 9/20] := by
  rw [show List.range 4 = [0, 1, 2, 3] by decide]
  norm_num [perceptualWeightAt]

theorem c4_maxAbs_eval : max (maxAbs c4Coeffs) SCALE_FLOOR_ENC = 6399/1600 := by
  have habsA : |(6399:ℚ)/1600| = 6399/1600 := abs_of_nonneg (by norm_num)
  have habsB : |(1:ℚ)/10| = 1/10 := abs_of_nonneg (by norm_num)
  norm_num [maxAbs, c4Coeffs, SCALE_FLOOR_ENC, List.foldl, habsA, habsB]

theorem c4_thresholds_eval :
    compute_masking_thresholds c4Ops c4Coeffs QUALITY_FACTOR
        (PerceptualWeights.new 4 100)
      = [6401/120000, 6401/140000, 6401/160000, 6401/180000] := by
  have habsA : |(6399:ℚ)/1600| = 6399/1600 := abs_of_nonneg (by norm_num)
  have habsB : |(1:ℚ)/10| = 1/10 := abs_of_nonneg (by norm_num)
  have hrange : List.range 4 = [0, 1, 2, 3] := by decide
  unfold compute_masking_thresholds PerceptualWeights.new
  simp only [c4_bands_eval, c4_weights_eval]
  rw [show c4Coeffs.length = 4 by norm_num [c4Coeffs]]
  rw [show List.range ([0, 4].length - 1) = [0] by decide]
  simp only [List.foldl_cons, List.foldl_nil]
  norm_num [c4Coeffs, List.getD, List.take, List.drop, c4Ops, QUALITY_FACTOR,
    SCALE_FLOOR_ENC, maxAbs, List.foldl, List.replicate, habsA, habsB, hrange,
    List.set]

theorem c4_quantized_eval :
    clampZ (rustRound (c4Coeffs.getD 1 0 / (6399/1600) * 32768)) (-32768) 32767
      = 819 := by
  rw [show c4Coeffs.getD 1 0 / (6399/1600) * 32768 = (5242880/6399 : ℚ) by
    norm_num [c4Coeffs, List.getD]]
  rw [rustRound, if_pos (by norm_num)]
  rw [show (5242880/6399 : ℚ) + 1/2 = (10492159/12798 : ℚ) by norm_num]
  rw [show ⌊(10492159/12798 : ℚ)⌋ = 819 from by
    rw [Int.floor_eq_iff]
    constructor <;> norm_num]
  rw [clampZ]
  norm_num

/-- Claim C4 as stated is false: at `coeffs = [6399/1600, 1/10, 0, 0]`,
`sample_rate = 100`, bin 1 has magnitude 1/10 strictly above the noise floor
(6399/400000 ≈ 0.016), strictly above its masking threshold
T[1] = 6401/140000 ≈ 0.0457, and a nonzero quantized value (819), yet the code
discards it, because the comparison uses
T[1] · S = 40959999/224000000 ≈ 0.183 with S = 6399/1600. -/
theorem c4_counterexample : ¬ c4DiscardClaim c4Ops 100 c4Coeffs := by
  intro hclaim
  simp only [c4DiscardClaim] at hclaim
  have h1 := hclaim 1 (by norm_num [c4Coeffs])
  rw [compress_not_mem_iff c4Ops c4Coeffs _ _ _ 1 (by norm_num [c4Coeffs])
      (by norm_num [c4Coeffs]),
    compressStep_none_iff] at h1
  rw [show c4Coeffs.length = 4 by norm_num [c4Coeffs]] at h1
  rw [c4_maxAbs_eval, c4_thresholds_eval, c4_quantized_eval] at h1
  have habsB : |(1:ℚ)/10| = 1/10 := abs_of_nonneg (by norm_num)
  norm_num [c4Coeffs, List.getD, c4Ops, NOISE_FLOOR_DB, habsB] at h1

/-! # Except combinator lemmas -/

theorem exceptMap_ok_iff {α β : Type} (f : α → Except GlcError β) :
    ∀ (l : List α) (ys : List β),
      exceptMap f l = .ok ys ↔ List.Forall₂ (fun x y => f x = .ok y) l ys := by
  intro l
  induction l with
  | nil =>
    intro ys
    constructor
    · intro h
      simp only [exceptMap, Except.ok.injEq] at h
      subst h
      exact List.Forall₂.nil
    · intro h
      cases h
      rfl
  | cons x xs ih =>
    intro ys
    simp only [exceptMap]
    cases hfx : f x with
    | error e =>
      constructor
      · intro h
        cases h
      · intro h
        cases h with
        | cons hxy hrest => rw [hfx] at hxy; cases hxy
    | ok y =>
      cases hrec : exceptMap f xs with
      | error e =>
        constructor
        · intro h
          cases h
        · intro h
          cases h with
          | cons hxy hrest =>
            rw [(ih _).mpr hrest] at hrec
            cases hrec
      | ok ys2 =>
        constructor
        · intro h
          simp only [Except.ok.injEq] at h
          subst h
          exact List.Forall₂.cons hfx ((ih ys2).mp hrec)
        · intro h
          cases h with
          | cons hxy hrest =>
            rw [hfx] at hxy
            cases hxy
            rw [(ih _).mpr hrest] at hrec
            cases hrec
            rfl

theorem exceptMap_ok_length {α β : Type} (f : α → Except GlcError β)
    (l : List α) (ys : List β) (h : exceptMap f l = .ok ys) :
    ys.length = l.length :=
  (((exceptMap_ok_iff f l ys).mp h).length_eq).symm

theorem exceptMap_ok_mem {α β : Type} (f : α → Except GlcError β)
    (l : List α) (ys : List β) (h : exceptMap f l = .ok ys) :
    ∀ y ∈ ys, ∃ x ∈ l, f x = .ok y := by
  have hf := (exceptMap_ok_iff f l ys).mp h
  clear h
  induction hf with
  | nil => intro y hy; cases hy
  | cons hxy hrest ih =>
    intro y hy
    rcases List.mem_cons.mp hy with rfl | hy2
    · exact ⟨_, by simp, hxy⟩
    · obtain ⟨x2, hx2, hfx2⟩ := ih y hy2
      exact ⟨x2, by simp [hx2], hfx2⟩

theorem exceptMap_ok_of_forall {α β : Type} (f : α → Except GlcError β)
    (l : List α) (h : ∀ x ∈ l, ∃ y, f x = .ok y) :
    ∃ ys, exceptMap f l = .ok ys := by
  induction l with
  | nil => exact ⟨[], rfl⟩
  | cons x xs ih =>
    obtain ⟨y, hy⟩ := h x (by simp)
    obtain ⟨ys, hys⟩ := ih (fun z hz => h z (by simp [hz]))
    exact ⟨y :: ys, by simp only [exceptMap, hy, hys]⟩

theorem exceptFoldl_ok_add {σ α : Type} (f : σ → α → Except GlcError σ)
    (μ : σ → ℕ) (k : ℕ) :
    ∀ (l : List α) (st : σ),
      (∀ st2, ∀ x ∈ l, ∃ st3, f st2 x = .ok st3 ∧ μ st3 = μ st2 + k) →
      ∃ st4, exceptFoldl f st l = .ok st4 ∧ μ st4 = μ st + l.length * k := by
  intro l
  induction l with
  | nil => intro st _; exact ⟨st, rfl, by simp⟩
  | cons x xs ih =>
    intro st h
    obtain ⟨st3, hst3, hmeas⟩ := h st x (by simp)
    obtain ⟨st4, hst4, hmeas4⟩ := ih st3 (fun st2 z hz => h st2 z (by simp [hz]))
    refine ⟨st4, ?_, ?_⟩
    · simp only [exceptFoldl, hst3, hst4]
    · rw [hmeas4, hmeas, List.length_cons]
      ring

/-! # Encoder success and frame invariants -/

theorem getD_range_map {β : Type} (f : ℕ → β) (n i : ℕ) (d : β) (h : i < n) :
    ((List.range n).map f).getD i d = f i := by
  simp [List.getD_eq_getElem?_getD, List.getElem?_map, List.getElem?_range, h]

theorem chanLen_of_dvd (len ch c : ℕ) (hch : 1 ≤ ch) (hc : c < ch)
    (hdvd : len % ch = 0) : chanLen len ch c = len / ch := by
  unfold chanLen
  obtain ⟨q, hq⟩ := Nat.dvd_of_mod_eq_zero hdvd
  rw [hq]
  rcases le_or_lt c (ch * q) with h | h
  · have h1 : ch * q - c + ch - 1 = ch * q + (ch - 1 - c) := by omega
    rw [h1, Nat.mul_add_div (by omega), Nat.div_eq_of_lt (by omega),
      Nat.mul_div_cancel_left _ (show 0 < ch by omega)]
    omega
  · have hq0 : q = 0 := by
      by_contra hq0
      have : ch ≤ ch * q := Nat.le_mul_of_pos_right ch (by omega)
      omega
    subst hq0
    simp only [Nat.mul_zero, Nat.zero_sub, Nat.zero_div]
    exact Nat.div_eq_of_lt (by omega)

theorem encodeChannel_ok (ops : FloatFns) (perc : PerceptualWeights)
    (pc : List ℚ) (fi : ℕ) (h : fi * HOP_SIZE + FRAME_SIZE ≤ pc.length) :
    ∃ r : List (ℕ × ℤ) × ℚ × List ℤ,
      encodeChannel ops perc pc fi = .ok r
        ∧ (∀ p ∈ r.1, p.1 < HOP_SIZE) ∧ (r.1.map Prod.fst).Nodup
        ∧ 0 < r.2.1 := by
  simp only [encodeChannel, listSlice, if_pos h]
  set slice := (pc.drop (fi * HOP_SIZE)).take FRAME_SIZE with hslice
  set coeffs := mdct_block ops HOP_SIZE (windowedBlock ops slice) with hcoeffs
  set scale := max (maxAbs coeffs) SCALE_FLOOR_ENC with hscale
  set th := compute_masking_thresholds ops coeffs QUALITY_FACTOR perc with hth
  have hlen : coeffs.length = HOP_SIZE := by
    rw [hcoeffs]
    simp [mdct_block]
  have hprops := compress_props ops coeffs scale th NOISE_FLOOR_DB
    (by rw [hlen]; norm_num [HOP_SIZE])
  refine ⟨_, rfl, ?_, ?_, ?_⟩
  · intro p hp
    have := hprops.1 p hp
    rwa [hlen] at this
  · exact hprops.2.imp (fun hab => ne_of_lt hab)
  · exact lt_of_lt_of_le (show (0:ℚ) < SCALE_FLOOR_ENC by norm_num [SCALE_FLOOR_ENC])
      (le_max_right _ _)

theorem encodeFrame_ok (ops : FloatFns) (perc : PerceptualWeights)
    (padded : List (List ℚ)) (fi : ℕ)
    (h : ∀ pc ∈ padded, fi * HOP_SIZE + FRAME_SIZE ≤ pc.length) :
    ∃ fr, encodeFrame ops perc padded fi = .ok fr
      ∧ frameWF padded.length fr
      ∧ (fr.raw_pcm = none →
          (∀ l ∈ fr.sparse_coeffs_per_channel,
            (∀ p ∈ l, p.1 < HOP_SIZE) ∧ (l.map Prod.fst).Nodup)
          ∧ ∀ sc ∈ fr.scale_factors, 0 < sc) := by
  obtain ⟨results, hres⟩ := exceptMap_ok_of_forall
    (fun pc => encodeChannel ops perc pc fi) padded
    (fun pc hpc => by
      obtain ⟨r, hr, _⟩ := encodeChannel_ok ops perc pc fi (h pc hpc)
      exact ⟨r, hr⟩)
  have hreslen := exceptMap_ok_length _ _ _ hres
  have hresmem := exceptMap_ok_mem _ _ _ hres
  have hresprops : ∀ r ∈ results,
      (∀ p ∈ r.1, p.1 < HOP_SIZE) ∧ (r.1.map Prod.fst).Nodup ∧ 0 < r.2.1 := by
    intro r hr
    obtain ⟨pc, hpc, hok⟩ := hresmem r hr
    obtain ⟨r2, hr2, hp1, hp2, hp3⟩ := encodeChannel_ok ops perc pc fi (h pc hpc)
    rw [hok] at hr2
    cases hr2
    exact ⟨hp1, hp2, hp3⟩
  simp only [encodeFrame, hres]
  split
  · refine ⟨_, rfl, ?_, ?_⟩
    · intro hn
      cases hn
    · intro hn
      cases hn
  · refine ⟨_, rfl, ?_, ?_⟩
    · intro _
      constructor
      · simp only [List.length_map]
        omega
      · simp only [List.length_map]
        omega
    · intro _
      constructor
      · intro l hl
        obtain ⟨r, hr, rfl⟩ := List.mem_map.mp hl
        exact ⟨(hresprops r hr).1, (hresprops r hr).2.1⟩
      · intro sc hsc
        obtain ⟨r, hr, rfl⟩ := List.mem_map.mp hsc
        exact (hresprops r hr).2.2

theorem encode_ok (ops : FloatFns) (sr : ℕ) (samples : List ℚ) (ch : ℕ)
    (h1 : 1 ≤ ch)
    (hall : ∀ c < ch,
      (numFramesOf (paddedLen (chanLen samples.length ch 0)) - 1) * HOP_SIZE
          + FRAME_SIZE
        ≤ paddedLen (chanLen samples.length ch c)) :
    ∃ s, encode ops sr samples ch = .ok s
      ∧ s.header.channels = ch
      ∧ s.gapless_info.encoder_delay = HOP_SIZE / 2
      ∧ s.gapless_info.original_length = samples.length
      ∧ s.frames.length = numFramesOf (paddedLen (chanLen samples.length ch 0))
      ∧ ∀ fr ∈ s.frames, frameWF ch fr
          ∧ (fr.raw_pcm = none →
              (∀ l ∈ fr.sparse_coeffs_per_channel,
                (∀ p ∈ l, p.1 < HOP_SIZE) ∧ (l.map Prod.fst).Nodup)
              ∧ ∀ sc ∈ fr.scale_factors, 0 < sc) := by
  have hmap : (deinterleave samples ch).map padChannel
      = (List.range ch).map (fun c => padChannel (channelOf samples ch c)) := by
    simp [deinterleave, List.map_map]
  have hp0 : ((deinterleave samples ch).map padChannel).getD 0 []
      = padChannel (channelOf samples ch 0) := by
    rw [hmap]
    exact getD_range_map _ ch 0 [] (by omega)
  have hp0len : (((deinterleave samples ch).map padChannel).getD 0 []).length
      = paddedLen (chanLen samples.length ch 0) := by
    rw [hp0, padChannel_length, channelOf_length _ _ _ h1]
    rfl
  have hpadlen : ∀ pc ∈ (deinterleave samples ch).map padChannel,
      ∃ c, c < ch ∧ pc.length = paddedLen (chanLen samples.length ch c) := by
    intro pc hpc
    rw [hmap] at hpc
    obtain ⟨c, hc, rfl⟩ := List.mem_map.mp hpc
    exact ⟨c, List.mem_range.mp hc,
      by rw [padChannel_length, channelOf_length _ _ _ h1]; rfl⟩
  have hframes : ∀ fi ∈ List.range (numFramesOf (paddedLen (chanLen samples.length ch 0))),
      ∃ fr, encodeFrame ops (PerceptualWeights.new HOP_SIZE sr)
          ((deinterleave samples ch).map padChannel) fi = .ok fr := by
    intro fi hfi
    have hfi2 := List.mem_range.mp hfi
    obtain ⟨fr, hfr, _⟩ := encodeFrame_ok ops (PerceptualWeights.new HOP_SIZE sr)
      ((deinterleave samples ch).map padChannel) fi (by
        intro pc hpc
        obtain ⟨c, hc, hlen⟩ := hpadlen pc hpc
        rw [hlen]
        calc fi * HOP_SIZE + FRAME_SIZE
            ≤ (numFramesOf (paddedLen (chanLen samples.length ch 0)) - 1) * HOP_SIZE
                + FRAME_SIZE := by
              have : fi ≤ numFramesOf (paddedLen (chanLen samples.length ch 0)) - 1 := by
                omega
              exact Nat.add_le_add_right (Nat.mul_le_mul_right _ this) _
          _ ≤ paddedLen (chanLen samples.length ch c) := hall c hc)
    exact ⟨fr, hfr⟩
  obtain ⟨frames, hframeseq⟩ := exceptMap_ok_of_forall _ _ hframes
  have hpaddedlen : ((deinterleave samples ch).map padChannel).length = ch := by
    simp [deinterleave_length]
  have henc : ∃ padding, encode ops sr samples ch = .ok
      { header := { sample_rate := sr, channels := ch
                    total_samples := samples.length }
        frames := frames
        gapless_info := { encoder_delay := HOP_SIZE / 2, padding := padding
                          original_length := samples.length } } := by
    refine ⟨paddedLen (chanLen samples.length ch 0)
      - ((deinterleave samples ch).getD 0 []).length - HOP_SIZE / 2, ?_⟩
    simp only [encode, if_neg (show ¬ ch = 0 by omega)]
    rw [show ((deinterleave samples ch).map padChannel).getD 0 []
        = padChannel (channelOf samples ch 0) from hp0]
    rw [show (padChannel (channelOf samples ch 0)).length
        = paddedLen (chanLen samples.length ch 0) from by
      rw [padChannel_length, channelOf_length _ _ _ h1]; rfl]
    rw [show (if paddedLen (chanLen samples.length ch 0) < FRAME_SIZE then 1
        else (paddedLen (chanLen samples.length ch 0) - FRAME_SIZE) / HOP_SIZE + 1)
        = numFramesOf (paddedLen (chanLen samples.length ch 0)) from rfl]
    rw [hframeseq]
  obtain ⟨padding2, henc⟩ := henc
  refine ⟨_, henc, rfl, rfl, rfl, ?_, ?_⟩
  · exact (exceptMap_ok_length _ _ _ hframeseq).trans (by simp)
  · intro fr hfr
    obtain ⟨fi, hfi, hok⟩ := exceptMap_ok_mem _ _ _ hframeseq fr hfr
    have hfi2 := List.mem_range.mp hfi
    obtain ⟨fr2, hfr2, hwf, hspec⟩ := encodeFrame_ok ops (PerceptualWeights.new HOP_SIZE sr)
      ((deinterleave samples ch).map padChannel) fi (by
        intro pc hpc
        obtain ⟨c, hc, hlen⟩ := hpadlen pc hpc
        rw [hlen]
        calc fi * HOP_SIZE + FRAME_SIZE
            ≤ (numFramesOf (paddedLen (chanLen samples.length ch 0)) - 1) * HOP_SIZE
                + FRAME_SIZE := by
              have : fi ≤ numFramesOf (paddedLen (chanLen samples.length ch 0)) - 1 := by
                omega
              exact Nat.add_le_add_right (Nat.mul_le_mul_right _ this) _
          _ ≤ paddedLen (chanLen samples.length ch c) := hall c hc)
    rw [hok] at hfr2
    cases hfr2
    rw [hpaddedlen] at hwf
    exact ⟨hwf, hspec⟩

/-! # Encoder inversion lemmas and claims C8, C6 -/

theorem encodeChannel_props (ops : FloatFns) (perc : PerceptualWeights)
    (pc : List ℚ) (fi : ℕ) (r : List (ℕ × ℤ) × ℚ × List ℤ)
    (h : encodeChannel ops perc pc fi = .ok r) :
    (∀ p ∈ r.1, p.1 < HOP_SIZE) ∧ (r.1.map Prod.fst).Nodup ∧ 0 < r.2.1 := by
  unfold encodeChannel at h
  cases hs : listSlice pc (fi * HOP_SIZE) FRAME_SIZE with
  | error e =>
    rw [hs] at h
    cases h
  | ok slice =>
    rw [hs] at h
    simp only [Except.ok.injEq] at h
    subst h
    have hlen : (mdct_block ops HOP_SIZE (windowedBlock ops slice)).length
        = HOP_SIZE := by simp [mdct_block]
    have hprops := compress_props ops (mdct_block ops HOP_SIZE (windowedBlock ops slice))
      (max (maxAbs (mdct_block ops HOP_SIZE (windowedBlock ops slice))) SCALE_FLOOR_ENC)
      (compute_masking_thresholds ops (mdct_block ops HOP_SIZE (windowedBlock ops slice))
        QUALITY_FACTOR perc)
      NOISE_FLOOR_DB (by rw [hlen]; norm_num [HOP_SIZE])
    refine ⟨?_, ?_, ?_⟩
    · intro p hp
      have := hprops.1 p hp
      rwa [hlen] at this
    · exact hprops.2.imp (fun hab => ne_of_lt hab)
    · exact lt_of_lt_of_le (show (0:ℚ) < SCALE_FLOOR_ENC by norm_num [SCALE_FLOOR_ENC])
        (le_max_right _ _)

theorem encodeFrame_props (ops : FloatFns) (perc : PerceptualWeights)
    (padded : List (List ℚ)) (fi : ℕ) (fr : EncodedFrame)
    (h : encodeFrame ops perc padded fi = .ok fr) :
    frameWF padded.length fr
      ∧ (fr.raw_pcm = none →
          (∀ l ∈ fr.sparse_coeffs_per_channel,
            (∀ p ∈ l, p.1 < HOP_SIZE) ∧ (l.map Prod.fst).Nodup)
          ∧ ∀ sc ∈ fr.scale_factors, 0 < sc) := by
  unfold encodeFrame at h
  split at h
  · cases h
  · rename_i results heq
    have hlen := exceptMap_ok_length _ _ _ heq
    have hmem := exceptMap_ok_mem _ _ _ heq
    dsimp only at h
    split at h <;> simp only [Except.ok.injEq] at h <;> subst h
    · exact ⟨(fun hn => nomatch hn), (fun hn => nomatch hn)⟩
    · refine ⟨fun _ => ⟨by simp [hlen], by simp [hlen]⟩, fun _ => ⟨?_, ?_⟩⟩
      · intro l hl
        obtain ⟨r, hr, rfl⟩ := List.mem_map.mp hl
        obtain ⟨pc, hpc, hok⟩ := hmem r hr
        exact ⟨(encodeChannel_props ops perc pc fi r hok).1,
          (encodeChannel_props ops perc pc fi r hok).2.1⟩
      · intro sc hsc
        obtain ⟨r, hr, rfl⟩ := List.mem_map.mp hsc
        obtain ⟨pc, hpc, hok⟩ := hmem r hr
        exact (encodeChannel_props ops perc pc fi r hok).2.2

/-- Claim C8: every sparse bin index a spectral frame of `encode` carries lies
in `[0, N)` with no duplicate index within a channel, and every per-channel
scale factor is strictly positive. -/
theorem c8_spectral_invariants (ops : FloatFns) (sr : ℕ) (samples : List ℚ)
    (channels : ℕ) : spectralOk (encode ops sr samples channels) := by
  intro s hs fr hfr hraw
  by_cases hch : channels = 0
  · simp only [encode, if_pos hch] at hs
    cases hs
  · simp only [encode, if_neg hch] at hs
    split at hs
    · cases hs
    · simp only [Except.ok.injEq] at hs
      subst hs
      rename_i frames heq
      obtain ⟨fi, hfi, hok⟩ := exceptMap_ok_mem _ _ _ heq fr hfr
      exact (encodeFrame_props _ _ _ _ _ hok).2 hraw

theorem exceptMap_error_all {α β : Type} (f : α → Except GlcError β)
    (e : GlcError) :
    ∀ l : List α, l ≠ [] → (∀ x ∈ l, f x = .error e) →
      exceptMap f l = .error e := by
  intro l
  cases l with
  | nil => intro h; exact absurd rfl h
  | cons x xs =>
    intro _ hall
    simp only [exceptMap, hall x (by simp)]

theorem chanLen_anti (len ch : ℕ) {c c' : ℕ} (h : c ≤ c') :
    chanLen len ch c' ≤ chanLen len ch c :=
  Nat.div_le_div_right (by omega)

theorem paddedLen_mono {a b : ℕ} (h : a ≤ b) : paddedLen a ≤ paddedLen b := by
  simp only [paddedLen, HOP_SIZE]
  split <;> split <;> omega

theorem encode_panics_of_short (ops : FloatFns) (sr : ℕ) (samples : List ℚ)
    (ch : ℕ) (h1 : 1 ≤ ch)
    (hshort : paddedLen (chanLen samples.length ch 0) < FRAME_SIZE) :
    encode ops sr samples ch = .error .panicked := by
  have hmap : (deinterleave samples ch).map padChannel
      = (List.range ch).map (fun c => padChannel (channelOf samples ch c)) := by
    simp [deinterleave, List.map_map]
  have hp0 : ((deinterleave samples ch).map padChannel).getD 0 []
      = padChannel (channelOf samples ch 0) := by
    rw [hmap]
    exact getD_range_map _ ch 0 [] (by omega)
  have hpadlen : ∀ pc ∈ (deinterleave samples ch).map padChannel,
      pc.length < FRAME_SIZE := by
    intro pc hpc
    rw [hmap] at hpc
    obtain ⟨c, hc, rfl⟩ := List.mem_map.mp hpc
    rw [padChannel_length, channelOf_length _ _ _ h1]
    calc paddedLen ((samples.length - c + ch - 1) / ch)
        ≤ paddedLen (chanLen samples.length ch 0) :=
          paddedLen_mono (chanLen_anti samples.length ch (Nat.zero_le c))
      _ < FRAME_SIZE := hshort
  have hframe : encodeFrame ops (PerceptualWeights.new HOP_SIZE sr)
      ((deinterleave samples ch).map padChannel) 0 = .error .panicked := by
    unfold encodeFrame
    rw [exceptMap_error_all _ GlcError.panicked _
      (by
        intro hnil
        have : ((deinterleave samples ch).map padChannel).length = 0 := by
          rw [hnil]; rfl
        simp [deinterleave_length] at this
        omega)
      (by
        intro pc hpc
        have hb := hpadlen pc hpc
        simp only [encodeChannel, listSlice,
          if_neg (show ¬ (0 * HOP_SIZE + FRAME_SIZE ≤ pc.length) by omega)])]
  simp only [encode, if_neg (show ¬ ch = 0 by omega)]
  rw [hp0, padChannel_length, channelOf_length _ _ _ h1]
  rw [if_pos (show paddedLen ((samples.length - 0 + ch - 1) / ch) < FRAME_SIZE
    from hshort)]
  rw [show List.range 1 = [0] from by decide]
  simp only [exceptMap, hframe]

theorem encode_ok_of_multiple (ops : FloatFns) (sr : ℕ) (samples : List ℚ)
    (ch : ℕ) (h1 : 1 ≤ ch) (h2 : samples.length % ch = 0)
    (h3 : 513 ≤ samples.length / ch) :
    ∃ s, encode ops sr samples ch = .ok s
      ∧ s.header.channels = ch
      ∧ s.gapless_info.encoder_delay = HOP_SIZE / 2
      ∧ s.gapless_info.original_length = samples.length
      ∧ s.frames.length = numFramesOf (paddedLen (samples.length / ch))
      ∧ ∀ fr ∈ s.frames, frameWF ch fr := by
  have hcl : ∀ c < ch, chanLen samples.length ch c = samples.length / ch :=
    fun c hc => chanLen_of_dvd samples.length ch c h1 hc h2
  have hbig : 2560 ≤ paddedLen (samples.length / ch) := paddedLen_big h3
  obtain ⟨s, hs, hch, hdel, horig, hflen, hfr⟩ := encode_ok ops sr samples ch h1 (by
    intro c hc
    rw [hcl c hc, hcl 0 (by omega)]
    have hnf : numFramesOf (paddedLen (samples.length / ch))
        = (paddedLen (samples.length / ch) - FRAME_SIZE) / HOP_SIZE + 1 := by
      unfold numFramesOf
      rw [if_neg (by simp only [FRAME_SIZE]; omega)]
    rw [hnf]
    have hd := Nat.div_mul_le_self (paddedLen (samples.length / ch) - FRAME_SIZE)
      HOP_SIZE
    simp only [FRAME_SIZE, HOP_SIZE] at *
    omega)
  rw [hcl 0 (by omega)] at hflen
  exact ⟨s, hs, hch, hdel, horig, hflen, fun fr hf => (hfr fr hf).1⟩

/-- Claim C6, amended: `encode` performs no input validation and never
constructs an `InvalidInput` error.  `channels == 0` panics (division by
zero), and any input whose samples length is a multiple of `channels ≥ 1`
with per-channel length at least 513 encodes successfully. -/
theorem c6_no_validation :
    (∀ (ops : FloatFns) (sr : ℕ) (samples : List ℚ),
        encode ops sr samples 0 = .error .panicked)
      ∧ ∀ (ops : FloatFns) (sr : ℕ) (samples : List ℚ) (ch : ℕ), 1 ≤ ch →
          samples.length % ch = 0 → 513 ≤ samples.length / ch →
          (encode ops sr samples ch).isOk = true := by
  constructor
  · intro ops sr samples
    rfl
  · intro ops sr samples ch h1 h2 h3
    obtain ⟨s, hs, _⟩ := encode_ok_of_multiple ops sr samples ch h1 h2 h3
    rw [hs]
    rfl

/-- Witness for the amended C6 at concrete inputs. -/
theorem c6_no_validation_witness :
    encode refOps 44100 (List.replicate 513 (0:ℚ)) 0 = .error .panicked
      ∧ 1 ≤ 1 ∧ (List.replicate 513 (0:ℚ)).length % 1 = 0
      ∧ 513 ≤ (List.replicate 513 (0:ℚ)).length / 1
      ∧ (encode refOps 44100 (List.replicate 513 (0:ℚ)) 1).isOk = true :=
  ⟨c6_no_validation.1 refOps 44100 _, le_refl 1, by simp, by simp,
    c6_no_validation.2 refOps 44100 _ 1 (le_refl 1) (by simp) (by simp)⟩

/-- Claim C6 as stated is false: `channels == 0` and a non-multiple samples
length produce panics, never an `InvalidInput` error value, and a valid-shaped
but short input (one mono sample) panics instead of succeeding. -/
theorem c6_counterexample :
    encode refOps 44100 ([] : List ℚ) 0 = .error .panicked
      ∧ encode refOps 44100 [(0:ℚ), 0, 0] 2 = .error .panicked
      ∧ (encode refOps 44100 [(0:ℚ)] 1).isOk = false
      ∧ GlcError.panicked ≠ GlcError.invalidInput := by
  refine ⟨rfl, ?_, ?_, by decide⟩
  · exact encode_panics_of_short refOps 44100 _ 2 (by norm_num) (by decide)
  · rw [encode_panics_of_short refOps 44100 _ 1 (by norm_num) (by decide)]
    rfl

/-- Claim C1 as stated is false: for the valid-shaped mono input `[0]`
(length a multiple of channels = 1), `encode` panics on an out-of-bounds
frame slice (the padded length 1536 is shorter than `FRAME_SIZE`), so no PCM
vector of the input's length is returned. -/
theorem c1_counterexample : ¬ lengthRoundTripOk refOps 44100 [(0:ℚ)] 1 := by
  rintro ⟨st, out, henc, -, -⟩
  rw [encode_panics_of_short refOps 44100 _ 1 (by norm_num) (by decide)] at henc
  cases henc

/-! # Decoder lemmas and claims C10, C2, C1 -/

theorem emitSamples_length (ch : ℕ) (ov blocks : List (List ℚ)) :
    (emitSamples ch ov blocks).length = HOP_SIZE * ch := by
  unfold emitSamples
  rw [List.length_flatten, List.map_map]
  rw [List.map_congr_left (g := fun _ => ch) (fun i _ => by simp)]
  rw [List.map_const', List.sum_replicate, List.length_range, smul_eq_mul]

theorem finalSamples_length (ch : ℕ) (ov : List (List ℚ)) :
    (finalSamples ch ov).length = HOP_SIZE * ch := by
  unfold finalSamples
  rw [List.length_flatten, List.map_map]
  rw [List.map_congr_left (g := fun _ => ch) (fun i _ => by simp)]
  rw [List.map_const', List.sum_replicate, List.length_range, smul_eq_mul]

theorem emitFrame_measure (ch : ℕ) (st : DecodeState) (blocks : List (List ℚ)) :
    (emitFrame ch st blocks).chunks.flatten.length
        + (emitFrame ch st blocks).chunk.length
      = st.chunks.flatten.length + st.chunk.length + HOP_SIZE * ch := by
  by_cases hsplit : FRAMES_PER_CHUNK * HOP_SIZE * ch
      ≤ (st.chunk ++ emitSamples ch st.overlap blocks).length
  · simp only [emitFrame, if_pos hsplit]
    simp [List.flatten_append, emitSamples_length]
    omega
  · simp only [emitFrame, if_neg hsplit]
    simp only [List.length_append, emitSamples_length, List.length_nil]
    omega

theorem decodeFrameBlocks_ok (ops : FloatFns) (ch : ℕ) (fr : EncodedFrame)
    (h : frameWF ch fr) :
    ∃ blocks, decodeFrameBlocks ops ch fr = .ok blocks := by
  unfold decodeFrameBlocks
  cases hraw : fr.raw_pcm with
  | some raw => exact ⟨_, rfl⟩
  | none =>
    obtain ⟨hs, hf⟩ := h hraw
    apply exceptMap_ok_of_forall
    intro c hc
    have hc2 : c < ch := List.mem_range.mp hc
    have i1 : ∃ v, listIndex fr.sparse_coeffs_per_channel c = .ok v := by
      unfold listIndex
      cases hg : fr.sparse_coeffs_per_channel.get? c with
      | none =>
        have := List.get?_eq_none.mp hg
        omega
      | some v => exact ⟨v, rfl⟩
    have i2 : ∃ v, listIndex fr.scale_factors c = .ok v := by
      unfold listIndex
      cases hg : fr.scale_factors.get? c with
      | none =>
        have := List.get?_eq_none.mp hg
        omega
      | some v => exact ⟨v, rfl⟩
    obtain ⟨v1, hv1⟩ := i1
    obtain ⟨v2, hv2⟩ := i2
    exact ⟨_, by rw [hv1, hv2]⟩

theorem decode_streaming_ok (ops : FloatFns) (s : EncodedAudio)
    (h : ∀ fr ∈ s.frames, frameWF s.header.channels fr) :
    ∃ chunks, decode_streaming ops s = .ok chunks
      ∧ chunks.flatten.length
          = (s.frames.length + 1) * (HOP_SIZE * s.header.channels) := by
  obtain ⟨stf, hfold, hmeas⟩ := exceptFoldl_ok_add
    (decodeStep ops s.header.channels)
    (fun st => st.chunks.flatten.length + st.chunk.length)
    (HOP_SIZE * s.header.channels)
    s.frames
    { overlap := List.replicate s.header.channels (List.replicate HOP_SIZE 0)
      chunk := [], chunks := [] }
    (fun st2 fr hfr => by
      obtain ⟨blocks, hb⟩ := decodeFrameBlocks_ok ops s.header.channels fr (h fr hfr)
      exact ⟨emitFrame s.header.channels st2 blocks, by simp only [decodeStep, hb],
        emitFrame_measure s.header.channels st2 blocks⟩)
  simp only [decode_streaming]
  rw [hfold]
  refine ⟨_, rfl, ?_⟩
  simp only [List.flatten_append, List.flatten_cons, List.flatten_nil,
    List.length_append, List.length_nil, finalSamples_length]
  simp only [List.flatten_nil, List.length_nil, List.length_append] at hmeas
  rw [Nat.succ_mul]
  omega

/-- Claim C10: for a stream whose spectral frames carry `C` sparse lists and
`C` scale factors (raw payload sizes are irrelevant to the decoder's
bound-checked reads), the concatenation of all chunks `decode_streaming`
emits holds exactly `(F + 1) · HOP_SIZE · C` interleaved samples: one hop per
frame plus the final flush of the overlap buffers. -/
theorem c10_chunk_total (ops : FloatFns) (s : EncodedAudio)
    (h : ∀ fr ∈ s.frames,
      (fr.raw_pcm = none →
          fr.sparse_coeffs_per_channel.length = s.header.channels
            ∧ fr.scale_factors.length = s.header.channels)
        ∧ ∀ raw, fr.raw_pcm = some raw →
            FRAME_SIZE * s.header.channels ≤ raw.length) :
    ∃ chunks, decode_streaming ops s = .ok chunks
      ∧ chunks.flatten.length
          = (s.frames.length + 1) * HOP_SIZE * s.header.channels := by
  obtain ⟨chunks, hc, hlen⟩ := decode_streaming_ok ops s (fun fr hfr hraw => by
    have := (h fr hfr).1 hraw
    omega)
  exact ⟨chunks, hc, by rw [hlen]; ring⟩

/-- Witness for C10 at a concrete stream (empty frame list, one channel). -/
theorem c10_chunk_total_witness :
    (∀ fr ∈ c10Stream.frames,
      (fr.raw_pcm = none →
          fr.sparse_coeffs_per_channel.length = c10Stream.header.channels
            ∧ fr.scale_factors.length = c10Stream.header.channels)
        ∧ ∀ raw, fr.raw_pcm = some raw →
            FRAME_SIZE * c10Stream.header.channels ≤ raw.length)
      ∧ ∃ chunks, decode_streaming refOps c10Stream = .ok chunks
          ∧ chunks.flatten.length
              = (c10Stream.frames.length + 1) * HOP_SIZE * c10Stream.header.channels :=
  ⟨by simp [c10Stream], c10_chunk_total refOps c10Stream (by simp [c10Stream])⟩

/-- Claim C2 is violated by the code for stereo streams: `decode` drains only
`encoder_delay` interleaved samples, not `encoder_delay · channels`.  On a
stereo stream with no frames, `encoder_delay = 512` and
`original_length = 2000`, the code returns 1536 samples while the claimed
trim (drop `512 · 2`, truncate to 2000) leaves 1024. -/
theorem c2_trim_divergence :
    (decode refOps c2Stream).map List.length = .ok 1536
      ∧ (decode_streaming refOps c2Stream).map
          (fun chunks => ((chunks.flatten.drop
              (c2Stream.gapless_info.encoder_delay * c2Stream.header.channels)).take
            c2Stream.gapless_info.original_length).length) = .ok 1024 := by
  obtain ⟨chunks, hc, hlen⟩ := decode_streaming_ok refOps c2Stream
    (by intro fr hfr; simp [c2Stream] at hfr)
  have hflat : chunks.flatten.length = 2048 := by
    rw [hlen]
    norm_num [c2Stream, HOP_SIZE]
  constructor
  · unfold decode
    rw [hc]
    dsimp only [c2Stream]
    have hcond1 : 512 < chunks.flatten.length := by omega
    rw [if_pos hcond1]
    have hcond2 : ¬ (2000 < (chunks.flatten.drop 512).length) := by
      rw [List.length_drop, hflat]
      norm_num
    rw [if_neg hcond2]
    simp only [Except.map, List.length_drop, hflat]
  · rw [hc]
    simp only [Except.map, c2Stream, List.length_take, List.length_drop, hflat]
    norm_num

/-- Claim C1, amended: for every input whose length is a multiple of
`channels ≥ 1` and whose per-channel length is at least 513 (so that `encode`
does not panic on a short padded buffer), encode-then-decode succeeds and
returns exactly `samples.length` interleaved samples. -/
theorem c1_length_roundtrip (ops : FloatFns) (sr : ℕ) (samples : List ℚ)
    (ch : ℕ) (h1 : 1 ≤ ch) (h2 : samples.length % ch = 0)
    (h3 : 513 ≤ samples.length / ch) :
    lengthRoundTripOk ops sr samples ch := by
  obtain ⟨s, hs, hch, hdel, horig, hflen, hwf⟩ :=
    encode_ok_of_multiple ops sr samples ch h1 h2 h3
  obtain ⟨chunks, hcs, hlen⟩ := decode_streaming_ok ops s
    (fun fr hfr => by rw [hch]; exact hwf fr hfr)
  have hdec : decode ops s = .ok (
      let all := chunks.flatten
      let all2 := if s.gapless_info.encoder_delay < all.length
        then all.drop s.gapless_info.encoder_delay else all
      if s.gapless_info.original_length < all2.length
        then all2.take s.gapless_info.original_length else all2) := by
    unfold decode
    rw [hcs]
  refine ⟨s, _, hs, hdec, ?_⟩
  dsimp only
  rw [hdel, horig]
  rw [hch] at hlen
  set L := samples.length / ch with hL
  have hP : paddedLen L % 1024 = 512 := paddedLen_mod L
  have hPb : 2560 ≤ paddedLen L := paddedLen_big h3
  have hPlb : L + 1024 ≤ paddedLen L := by
    have := paddedLen_lb L
    simpa [HOP_SIZE] using this
  have hF : numFramesOf (paddedLen L) = (paddedLen L - 2048) / 1024 + 1 := by
    unfold numFramesOf
    rw [if_neg (by simp only [FRAME_SIZE]; omega)]
    simp only [FRAME_SIZE, HOP_SIZE]
  have hA : (numFramesOf (paddedLen L) + 1) * 1024 = paddedLen L - 512 := by
    rw [hF]
    omega
  have htot : chunks.flatten.length = (paddedLen L - 512) * ch := by
    rw [hlen, hflen]
    calc (numFramesOf (paddedLen L) + 1) * (HOP_SIZE * ch)
        = ((numFramesOf (paddedLen L) + 1) * HOP_SIZE) * ch := by ring
      _ = (paddedLen L - 512) * ch := by
          rw [show HOP_SIZE = 1024 from rfl, hA]
  have hLch : L * ch = samples.length := by
    rw [hL, Nat.div_mul_cancel (Nat.dvd_of_mod_eq_zero h2)]
  have hge : samples.length + 512 ≤ (paddedLen L - 512) * ch := by
    have hm : (L + 512) * ch ≤ (paddedLen L - 512) * ch :=
      Nat.mul_le_mul_right ch (by omega)
    have h512 : 512 * 1 ≤ 512 * ch := Nat.mul_le_mul_left 512 h1
    calc samples.length + 512 = L * ch + 512 := by rw [hLch]
      _ ≤ L * ch + 512 * ch := by omega
      _ = (L + 512) * ch := by ring
      _ ≤ (paddedLen L - 512) * ch := hm
  have hs513 : 513 ≤ samples.length := by
    calc (513:ℕ) = 513 * 1 := by norm_num
      _ ≤ L * ch := Nat.mul_le_mul h3 h1
      _ = samples.length := hLch
  have htot512 : 512 < chunks.flatten.length := by
    rw [htot]
    omega
  rw [show HOP_SIZE / 2 = 512 from rfl]
  rw [if_pos htot512]
  by_cases horder : samples.length < (chunks.flatten.drop 512).length
  · rw [if_pos horder]
    rw [List.length_take, List.length_drop]
    rw [List.length_drop] at horder
    omega
  · rw [if_neg horder]
    rw [List.length_drop] at horder ⊢
    rw [htot] at horder ⊢
    omega

/-- Witness for the amended C1 at a concrete input of 513 zero samples. -/
theorem c1_length_roundtrip_witness :
    1 ≤ 1 ∧ (List.replicate 513 (0:ℚ)).length % 1 = 0
      ∧ 513 ≤ (List.replicate 513 (0:ℚ)).length / 1
      ∧ lengthRoundTripOk refOps 44100 (List.replicate 513 (0:ℚ)) 1 :=
  ⟨le_refl 1, by simp, by simp,
    c1_length_roundtrip refOps 44100 _ 1 (le_refl 1) (by simp) (by simp)⟩

theorem rawChannelSamples_length (ops : FloatFns) (slice : List ℚ) :
    (rawChannelSamples ops slice).length = FRAME_SIZE := by
  simp [rawChannelSamples, windowedBlock]

theorem rawChannelSamples_getD (ops : FloatFns) (slice : List ℚ) (i : ℕ)
    (h : i < FRAME_SIZE) :
    (rawChannelSamples ops slice).getD i 0
      = i16FromSample (slice.getD i 0 * (theWindow ops).getD i 0) := by
  simp [rawChannelSamples, windowedBlock, List.getD_eq_getElem?_getD,
    List.getElem?_map, List.getElem?_range, h]

theorem theWindow_refOps_getD (i : ℕ) (h : i < FRAME_SIZE) :
    (theWindow refOps).getD i 0 = 1/2 := by
  rw [List.getD_eq_getElem?_getD, theWindow, List.getElem?_map,
    List.getElem?_range h]
  rfl

/-- **C3.** The raw payload is written channel-major, not interleaved: for a
stereo raw frame with channel 0 all `1` and channel 1 all `-1`, the sample at
interleaved position `i * channels + c = 1` (i = 0, c = 1) holds channel 0's
windowed sample 1 (`16383`), not channel 1's windowed sample 0 (`-16383`), so
the interleaved layout asserted by the claim fails. -/
theorem c3_raw_layout_divergence :
    c3Payload.getD (0 * 2 + 1) 0
        = i16FromSample ((List.replicate FRAME_SIZE (1:ℚ)).getD 1 0
            * (theWindow refOps).getD 1 0)
      ∧ c3Payload.getD (0 * 2 + 1) 0
          ≠ i16FromSample ((List.replicate FRAME_SIZE (-1:ℚ)).getD 0 0
              * (theWindow refOps).getD 0 0)
      ∧ ¬ interleavedLayoutOk refOps
          [List.replicate FRAME_SIZE (1:ℚ), List.replicate FRAME_SIZE (-1:ℚ)]
          c3Payload := by
  have hr1 : (List.replicate FRAME_SIZE (1:ℚ)).getD 1 0 = 1 := by
    rw [List.getD_eq_getElem?_getD, List.getElem?_replicate]
    norm_num [FRAME_SIZE]
  have hr0 : (List.replicate FRAME_SIZE (-1:ℚ)).getD 0 0 = -1 := by
    rw [List.getD_eq_getElem?_getD, List.getElem?_replicate]
    norm_num [FRAME_SIZE]
  have hA : c3Payload.getD 1 0 = i16FromSample ((1:ℚ) * (1/2)) := by
    unfold c3Payload
    rw [List.map_cons, List.map_cons, List.map_nil, List.flatten_cons,
      List.flatten_cons, List.flatten_nil, List.append_nil]
    rw [List.getD_append _ _ _ _
      (by rw [rawChannelSamples_length]; norm_num [FRAME_SIZE])]
    rw [rawChannelSamples_getD refOps _ 1 (by norm_num [FRAME_SIZE])]
    rw [theWindow_refOps_getD 1 (by norm_num [FRAME_SIZE])]
    rw [hr1]
  have hv1 : i16FromSample ((1:ℚ) * (1/2)) = 16383 := by
    have h1 : ((1:ℚ) * (1/2)) * 32767 = 32767/2 := by norm_num
    unfold i16FromSample
    rw [h1]
    have hc : clampQ ((32767:ℚ)/2) (-32768) 32767 = 32767/2 := by
      unfold clampQ
      rw [max_eq_right (by norm_num), min_eq_right (by norm_num)]
    rw [hc]
    unfold ratTrunc
    rw [if_pos (by norm_num)]
    rw [Int.floor_eq_iff]
    norm_num
  have hv2 : i16FromSample ((-1:ℚ) * (1/2)) = -16383 := by
    have h1 : ((-1:ℚ) * (1/2)) * 32767 = -(32767/2) := by norm_num
    unfold i16FromSample
    rw [h1]
    have hc : clampQ (-((32767:ℚ)/2)) (-32768) 32767 = -(32767/2) := by
      unfold clampQ
      rw [max_eq_right (by norm_num), min_eq_right (by norm_num)]
    rw [hc]
    unfold ratTrunc
    rw [if_neg (by norm_num)]
    rw [Int.ceil_eq_iff]
    norm_num
  refine ⟨?_, ?_, ?_⟩
  · show c3Payload.getD 1 0 = _
    rw [hr1, theWindow_refOps_getD 1 (by norm_num [FRAME_SIZE])]
    exact hA
  · show c3Payload.getD 1 0 ≠ _
    rw [hr0, theWindow_refOps_getD 0 (by norm_num [FRAME_SIZE]), hA, hv1, hv2]
    decide
  · rintro ⟨-, hpos⟩
    have h := hpos 0 (by norm_num [FRAME_SIZE]) 1 (by simp)
    simp only [List.length_cons, List.length_nil, List.getD_cons_succ,
      List.getD_cons_zero] at h
    simp only [Nat.zero_mul, Nat.zero_add] at h
    rw [hr0, theWindow_refOps_getD 0 (by norm_num [FRAME_SIZE]), hv2] at h
    rw [hA, hv1] at h
    exact absurd h (by decide)

end GLC
